import Mathlib

/-!
# AlcorSet controller: a shallow embedding of `pkg/controller/alcorset`

The development embeds the reconciliation code of the AlcorSet controller
(`utils.go`, `handlers.go`, `alcorset_controller.go`) as executable Lean
definitions and proves properties of them.

Conventions of the embedding

* A Go `string` is a byte sequence; it is modelled as `List Char`, one `Char`
  per byte (`GoString`).
* A Go `int` is a 64 bit signed integer, modelled as `Int`; where the code
  relies on wrap-around the reduction is written explicitly.
* `strings.Split`, `strconv.Atoi` and `fmt.Sprintf("%d")` belong to the Go
  standard library; they are modelled after the library's source.
* The cluster store client is modelled as explicit state: a `World` holding
  the stored objects, the list of client calls issued so far, and a fault
  schedule that tells for the n-th client call whether it fails.
* Pointers to structs become values that are passed in and returned.
* The repository predates Go 1.22, so the variable of a `for ... range` loop
  is ONE variable for the whole loop: a pointer `&pod` taken inside the loop
  body refers to that variable and, after the loop, to the element assigned
  last.
-/

namespace Alcor

/-! ## Strings and numbers of the Go standard library -/

/-- A Go string, as the sequence of its bytes. -/
abbrev GoString := List Char

/-- Scanning loop of `strings.Split(s, sep)` for a separator of one byte:
`cur` holds, reversed, the bytes of the field being read. -/
def splitLoop (sep : Char) : List Char → List Char → List GoString
  | [], cur => [cur.reverse]
  | c :: cs, cur =>
    if c = sep then cur.reverse :: splitLoop sep cs [] else splitLoop sep cs (c :: cur)

/-- The function `strings.Split(s, sep)` for a separator of one byte: the
fields between the separators; a string without separator, the empty string
included, gives one field. -/
def Split (s : GoString) (sep : Char) : List GoString :=
  splitLoop sep s []

/-- Errors of `strconv`: `ErrSyntax` and `ErrRange`. -/
inductive NumError where
  | ErrSyntax
  | ErrRange
  deriving DecidableEq, Repr

/-- Largest `uint64`. -/
def maxUint64 : Nat := 18446744073709551615

/-- Largest `int64`. -/
def maxInt64 : Int := 9223372036854775807

/-- Digit loop of the fast path of `strconv.Atoi`: `ch -= '0'; if ch > 9`
is a syntax error (`none`), else `n = n*10 + int(ch)`. -/
def atoiFast : List Char → Nat → Option Nat
  | [], n => some n
  | ch :: s, n =>
    if 48 ≤ ch.toNat ∧ ch.toNat ≤ 57 then atoiFast s (n * 10 + (ch.toNat - 48)) else none

/-- Digit loop of `strconv.ParseUint(s, 10, 64)`: a byte that is no decimal
digit is a syntax error with value 0; overflow stops the loop at once with
the largest value and a range error. -/
def parseUintLoop : List Char → Nat → Nat × Option NumError
  | [], n => (n, none)
  | c :: s, n =>
    if 48 ≤ c.toNat ∧ c.toNat ≤ 57 then
      if n ≥ maxUint64 / 10 + 1 then (maxUint64, some NumError.ErrRange)
      else
        let n1 := n * 10 + (c.toNat - 48)
        if n1 > maxUint64 then (maxUint64, some NumError.ErrRange)
        else parseUintLoop s n1
    else (0, some NumError.ErrSyntax)

/-- The function `strconv.ParseUint(s, 10, 64)`. -/
def ParseUint (s : GoString) : Nat × Option NumError :=
  match s with
  | [] => (0, some NumError.ErrSyntax)
  | _ => parseUintLoop s 0

/-- The function `strconv.ParseInt(s, 10, 0)` on a 64 bit platform. -/
def ParseInt (s : GoString) : Int × Option NumError :=
  match s with
  | [] => (0, some NumError.ErrSyntax)
  | c0 :: rest =>
    let neg := decide (c0 = '-')
    let body := if c0 = '+' ∨ c0 = '-' then rest else s
    match ParseUint body with
    | (_, some NumError.ErrSyntax) => (0, some NumError.ErrSyntax)
    | (un, _) =>
      if !neg && decide (un ≥ 9223372036854775808) then
        (maxInt64, some NumError.ErrRange)
      else if neg && decide (un > 9223372036854775808) then
        (-9223372036854775808, some NumError.ErrRange)
      else (if neg then -(un : Int) else (un : Int), none)

/-- The function `strconv.Atoi(s)` on a 64 bit platform: the fast path for
strings of 1 to 18 bytes, `ParseInt` for the others. -/
def Atoi (s : GoString) : Int × Option NumError :=
  if 0 < s.length ∧ s.length < 19 then
    match s with
    | [] => (0, some NumError.ErrSyntax)
    | c0 :: rest =>
      let signed := decide (c0 = '-' ∨ c0 = '+')
      if signed && decide (rest.length < 1) then (0, some NumError.ErrSyntax)
      else
        match atoiFast (if signed then rest else s) 0 with
        | none => (0, some NumError.ErrSyntax)
        | some n => (if c0 = '-' then -(n : Int) else (n : Int), none)
  else ParseInt s

/-- Decimal digits of `n`, most significant first; `fuel` bounds the number
of digits (20 suffice for every 64 bit value). -/
def fmtNat : Nat → Nat → List Char
  | 0, _ => []
  | fuel + 1, n =>
    if n < 10 then [Char.ofNat (48 + n)]
    else fmtNat fuel (n / 10) ++ [Char.ofNat (48 + n % 10)]

/-- The verb `%d` of `fmt.Sprintf` applied to an `int`. -/
def fmtInt (i : Int) : GoString :=
  if i < 0 then '-' :: fmtNat 20 (-i).toNat else fmtNat 20 i.toNat

/-! ## Data model (`alcorset_types.go` and the objects the controller reads) -/

/-- The fields of `AlcorSetSpec` the controller reads. -/
structure AlcorSetSpec where
  Replicas : Int
  OnVPC : Bool
  HostnamePrefix : GoString
  Sequence : Bool
  deriving DecidableEq, Repr

/-- The fields of `AlcorSetStatus` the controller writes; a nil slice
`ClaimedIPs` is `none`. -/
structure AlcorSetStatus where
  Count : Int
  ClaimedIPs : Option (List GoString)
  deriving DecidableEq, Repr

/-- An `AlcorSet` object: name, finalizer list, deletion marker
(`DeletionTimestamp != nil`), spec and status. -/
structure AlcorSet where
  Name : GoString
  Finalizers : List GoString
  Deleting : Bool
  Spec : AlcorSetSpec
  Status : AlcorSetStatus
  deriving DecidableEq, Repr

/-- A pod, as far as the controller looks at it: name, hostname, the value of
its label `app.alcorset.alcor.io` (`none` when absent), the IP annotation,
the deletion marker (`DeletionTimestamp != nil`), `Status.Phase ==
PodRunning` and `podutil.IsPodReady`. -/
structure Pod where
  Name : GoString
  Hostname : GoString
  AppLabel : Option GoString
  IP : GoString
  Deleting : Bool
  Running : Bool
  Ready : Bool
  deriving DecidableEq, Repr

/-- An `IPClaim` or `VPCIPClaim`: name, the value of its label
`app.alcorset.alcor.io`, and `Status.IP`. -/
structure Claim where
  Name : GoString
  AppLabel : Option GoString
  IP : GoString
  deriving DecidableEq, Repr

/-- The two claim kinds: `IPClaim` and `VPCIPClaim`. -/
inductive ClaimKind where
  | ip
  | vpc
  deriving DecidableEq, Repr

/-! ## Constants and pure helpers (`utils.go`) -/

def PodsRaisingPhase : String := "Sequence case, pod in raising phase"

def PodsFallingPhase : String := "Sequence case, pod in falling phase"

def FinalizerIPClaim : GoString := "ipclaim.finalizer.alcorset.alcor.io".toList

def FinalizerVPCIPClaim : GoString := "vpcipclaim.finalizer.alcorset.alcor.io".toList

/-- The constant `PodNameIndexSep = "-"`, a separator of one byte. -/
def PodNameIndexSep : Char := '-'

def allFinalizers : List GoString := [FinalizerIPClaim, FinalizerVPCIPClaim]

/-- Source: `fmt.Sprintf("%s%s%d", alcorset.Name, PodNameIndexSep, podIdx)`. -/
def getPodName (alcorset : AlcorSet) (podIdx : Int) : GoString :=
  alcorset.Name ++ PodNameIndexSep :: fmtInt podIdx

/-- Source: `fmt.Sprintf("%s%s%d", alcorset.Spec.HostnamePrefix,
PodNameIndexSep, podIdx)`. -/
def getPodHostname (alcorset : AlcorSet) (podIdx : Int) : GoString :=
  alcorset.Spec.HostnamePrefix ++ PodNameIndexSep :: fmtInt podIdx

/-- Source: `getIndexByName`. The access `fields[len(fields)-1]` panics when
it is out of range: that outcome is `none`. The error of `Atoi` is dropped,
as in the source. -/
def getIndexByName (podName : GoString) : Option Int :=
  let fields := Split podName PodNameIndexSep
  match fields[fields.length - 1]? with
  | none => none
  | some field => some (Atoi field).1

/-- Source: `contains`. -/
def contains (list : List GoString) (s : GoString) : Bool :=
  match list with
  | [] => false
  | v :: rest => if v = s then true else contains rest s

/-- Source: `getPodMap`; the map is kept as an association list, a later
entry for a name standing in front of an earlier one. -/
def getPodMap (pods : List Pod) : List (GoString × Pod) :=
  pods.foldl (fun podMap pod => (pod.Name, pod) :: podMap) []

/-! ## The cluster store client

The client is the external collaborator of the controller. Its model keeps
the objects of the owner's namespace, records every call issued, and lets the
n-th call fail when the fault schedule says so. What the API server does on
its own account (garbage collection of owned objects, removal of an owner
whose finalizer list became empty, the end of a graceful pod termination)
happens between two reconcile calls and is no part of a client call. -/

/-- An error value: `NotFound` is an API status error for which
`errors.IsNotFound` holds, `Other` any other error with its `Error()` text,
`Panic` a runtime panic, which ends the call. -/
inductive GoError where
  | NotFound
  | Other (text : String)
  | Panic
  deriving DecidableEq, Repr

/-- The text `err.Error()`. -/
def GoError.Error : GoError → String
  | GoError.NotFound => "not found"
  | GoError.Other text => text
  | GoError.Panic => "panic"

/-- A call on the cluster store client. -/
inductive Op where
  | GetAlcorSet
  | ListPods
  | GetPod (name : GoString)
  | CreatePod (pod : Pod)
  | DeletePod (name : GoString)
  | Update (als : AlcorSet)
  | StatusUpdate (als : AlcorSet)
  | GetClaim (kind : ClaimKind) (name : GoString)
  | CreateClaim (kind : ClaimKind) (claim : Claim)
  | ListClaims (kind : ClaimKind)
  | DeleteClaim (kind : ClaimKind) (name : GoString)
  deriving DecidableEq, Repr

/-- The stored objects: the owner named by the request (if it exists), the
pods and the claims of both kinds in its namespace. -/
structure World where
  owner : Option AlcorSet
  pods : List Pod
  ipclaims : List Claim
  vpcipclaims : List Claim
  deriving DecidableEq, Repr

/-- The client: the store, the calls issued so far, and the fault schedule
(`faults n` is the error of the n-th call, counted from 0, if it fails). -/
structure Client where
  world : World
  calls : List Op
  faults : Nat → Option GoError

/-- The error the fault schedule has for the call about to be issued. -/
def Client.fault (c : Client) : Option GoError :=
  c.faults c.calls.length

/-- Record a call. -/
def Client.log (c : Client) (op : Op) : Client :=
  { c with calls := c.calls ++ [op] }

/-- The claims of one kind. -/
def World.claims (w : World) (kind : ClaimKind) : List Claim :=
  match kind with
  | ClaimKind.ip => w.ipclaims
  | ClaimKind.vpc => w.vpcipclaims

/-- Replace the claims of one kind. -/
def World.setClaims (w : World) (kind : ClaimKind) (cl : List Claim) : World :=
  match kind with
  | ClaimKind.ip => { w with ipclaims := cl }
  | ClaimKind.vpc => { w with vpcipclaims := cl }

/-- The call `client.Get` for the owner named by the request. -/
def Client.GetAlcorSet (c : Client) : Except GoError AlcorSet × Client :=
  match c.fault with
  | some e => (Except.error e, c.log Op.GetAlcorSet)
  | none =>
    match c.world.owner with
    | none => (Except.error GoError.NotFound, c.log Op.GetAlcorSet)
    | some als => (Except.ok als, c.log Op.GetAlcorSet)

/-- The call `client.List` for pods with `InNamespace` and `MatchingLabels
{AlcorSetAppLabel: name}`. -/
def Client.ListPods (c : Client) (name : GoString) : Except GoError (List Pod) × Client :=
  match c.fault with
  | some e => (Except.error e, c.log Op.ListPods)
  | none => (Except.ok (c.world.pods.filter (fun p => p.AppLabel = some name)), c.log Op.ListPods)

/-- The zero value of a pod. -/
def Pod.zero : Pod := ⟨[], [], none, [], false, false, false⟩

/-- The zero value of a claim. -/
def Claim.zero : Claim := ⟨[], none, []⟩

/-- The call `client.Get` for a pod by name; on an error the object stays
the zero value. -/
def Client.GetPod (c : Client) (name : GoString) : (Pod × Option GoError) × Client :=
  match c.fault with
  | some e => ((Pod.zero, some e), c.log (Op.GetPod name))
  | none =>
    match c.world.pods.find? (fun p => p.Name = name) with
    | none => ((Pod.zero, some GoError.NotFound), c.log (Op.GetPod name))
    | some p => ((p, none), c.log (Op.GetPod name))

/-- The call `client.Create` for a pod; a name already taken is refused. -/
def Client.CreatePod (c : Client) (pod : Pod) : Option GoError × Client :=
  match c.fault with
  | some e => (some e, c.log (Op.CreatePod pod))
  | none =>
    if c.world.pods.any (fun p => p.Name = pod.Name) then
      (some (GoError.Other "already exists"), c.log (Op.CreatePod pod))
    else
      (none, { c.log (Op.CreatePod pod) with world := { c.world with pods := c.world.pods ++ [pod] } })

/-- The call `client.Delete` for a pod: the pod gets its deletion marker. -/
def Client.DeletePod (c : Client) (name : GoString) : Option GoError × Client :=
  match c.fault with
  | some e => (some e, c.log (Op.DeletePod name))
  | none =>
    if c.world.pods.any (fun p => p.Name = name) then
      (none, { c.log (Op.DeletePod name) with
        world := { c.world with
          pods := c.world.pods.map (fun p => if p.Name = name then { p with Deleting := true } else p) } })
    else (some GoError.NotFound, c.log (Op.DeletePod name))

/-- The call `client.Update` for the owner: metadata and spec are stored,
the status (a subresource) is not. -/
def Client.Update (c : Client) (als : AlcorSet) : Option GoError × Client :=
  match c.fault with
  | some e => (some e, c.log (Op.Update als))
  | none =>
    match c.world.owner with
    | none => (some GoError.NotFound, c.log (Op.Update als))
    | some stored =>
      (none, { c.log (Op.Update als) with
        world := { c.world with
          owner := some { stored with Finalizers := als.Finalizers, Spec := als.Spec } } })

/-- The call `client.Status().Update` for the owner: only the status is
stored. -/
def Client.StatusUpdate (c : Client) (als : AlcorSet) : Option GoError × Client :=
  match c.fault with
  | some e => (some e, c.log (Op.StatusUpdate als))
  | none =>
    match c.world.owner with
    | none => (some GoError.NotFound, c.log (Op.StatusUpdate als))
    | some stored =>
      (none, { c.log (Op.StatusUpdate als) with
        world := { c.world with owner := some { stored with Status := als.Status } } })

/-- The call `client.Get` for a claim by name; on an error the object stays
the zero value. -/
def Client.GetClaim (c : Client) (kind : ClaimKind) (name : GoString) :
    (Claim × Option GoError) × Client :=
  match c.fault with
  | some e => ((Claim.zero, some e), c.log (Op.GetClaim kind name))
  | none =>
    match (c.world.claims kind).find? (fun cl => cl.Name = name) with
    | none => ((Claim.zero, some GoError.NotFound), c.log (Op.GetClaim kind name))
    | some cl => ((cl, none), c.log (Op.GetClaim kind name))

/-- The call `client.Create` for a claim; a name already taken is refused. -/
def Client.CreateClaim (c : Client) (kind : ClaimKind) (claim : Claim) : Option GoError × Client :=
  match c.fault with
  | some e => (some e, c.log (Op.CreateClaim kind claim))
  | none =>
    if (c.world.claims kind).any (fun cl => cl.Name = claim.Name) then
      (some (GoError.Other "already exists"), c.log (Op.CreateClaim kind claim))
    else
      (none, { c.log (Op.CreateClaim kind claim) with
        world := c.world.setClaims kind (c.world.claims kind ++ [claim]) })

/-- The call `client.List` for claims with `InNamespace` and `MatchingLabels
{AlcorSetAppLabel: name}`. -/
def Client.ListClaims (c : Client) (kind : ClaimKind) (name : GoString) :
    Except GoError (List Claim) × Client :=
  match c.fault with
  | some e => (Except.error e, c.log (Op.ListClaims kind))
  | none =>
    (Except.ok ((c.world.claims kind).filter (fun cl => cl.AppLabel = some name)),
      c.log (Op.ListClaims kind))

/-- The call `client.Delete` for a claim: the claim leaves the store. -/
def Client.DeleteClaim (c : Client) (kind : ClaimKind) (name : GoString) : Option GoError × Client :=
  match c.fault with
  | some e => (some e, c.log (Op.DeleteClaim kind name))
  | none =>
    if (c.world.claims kind).any (fun cl => cl.Name = name) then
      (none, { c.log (Op.DeleteClaim kind name) with
        world := c.world.setClaims kind ((c.world.claims kind).filter (fun cl => cl.Name ≠ name)) })
    else (some GoError.NotFound, c.log (Op.DeleteClaim kind name))

/-! ## Handlers (`handlers.go`)

A method of `*ReconcileAlcorSet` takes the client and returns it; a method
that writes through the pointer `als` also returns the object. The texts of
errors built with `fmt.Errorf` are abbreviated. -/

/-- Source: `initStatus`. -/
def initStatus (c : Client) (als : AlcorSet) : Option GoError × AlcorSet × Client :=
  if als.Status.ClaimedIPs = none then
    let als1 := { als with Status := { als.Status with ClaimedIPs := some [] } }
    match c.StatusUpdate als1 with
    | (some err, c1) =>
      (some (GoError.Other ("Failed to update status for psHash, since: " ++ err.Error)), als1, c1)
    | (none, c1) => (none, als1, c1)
  else (none, als, c)

/-- Source: `newIPClaimForCR` and `newVPCIPClaimForCR`: a claim named after
the pod, labelled with the owner's name, without status. -/
def newClaimForCR (als : AlcorSet) (name : GoString) : Claim :=
  ⟨name, some als.Name, []⟩

/-- Source: `getIPClaimRef`. The result is the pair `(claim or nil, error)`. -/
def getIPClaimRef (c : Client) (als : AlcorSet) (podName : GoString) :
    (Option Claim × Option GoError) × Client :=
  match c.GetClaim ClaimKind.ip podName with
  | ((ipClaimRef, err), c1) =>
    if err = some GoError.NotFound then
      match c1.CreateClaim ClaimKind.ip (newClaimForCR als podName) with
      | (some _, c2) => ((none, some (GoError.Other "Fail to create ipclaim")), c2)
      | (none, c2) => ((none, none), c2)
    else if ipClaimRef.IP = [] then ((none, none), c1)
    else ((some ipClaimRef, none), c1)

/-- Source: `getVPCIPClaimRef`. The result is the pair `(claim or nil,
error)`. -/
def getVPCIPClaimRef (c : Client) (als : AlcorSet) (podName : GoString) :
    (Option Claim × Option GoError) × Client :=
  match c.GetClaim ClaimKind.vpc podName with
  | ((vpcIPClaimRef, err), c1) =>
    if err = some GoError.NotFound then
      match c1.CreateClaim ClaimKind.vpc (newClaimForCR als podName) with
      | (some _, c2) => ((none, some (GoError.Other "Fail to create vpcipclaim")), c2)
      | (none, c2) => ((none, none), c2)
    else if vpcIPClaimRef.IP = [] then ((none, none), c1)
    else ((some vpcIPClaimRef, none), c1)

/-- Source: `addFinalizers`. -/
def addFinalizers (c : Client) (alcorset : AlcorSet) (toAdd : List GoString) :
    Option GoError × AlcorSet × Client :=
  let als1 := { alcorset with Finalizers := alcorset.Finalizers ++ toAdd }
  match c.Update als1 with
  | (err, c1) => (err, als1, c1)

/-- Source: `removeFinalizer`. -/
def removeFinalizer (c : Client) (alcorset : AlcorSet) (toRemove : GoString) :
    Option GoError × AlcorSet × Client :=
  let als1 := { alcorset with Finalizers := alcorset.Finalizers.filter (fun fin => fin ≠ toRemove) }
  match c.Update als1 with
  | (err, c1) => (err, als1, c1)

/-- The loop of `getPods` in the sequential case, with the test that follows
it: a pod with a deletion marker returns the falling signal at once; a pod
that is not running and ready leaves the loop (`break`) and the raising
signal is returned; when the loop runs to its end there is no error. -/
def getPodsLoop : List Pod → Option GoError
  | [] => none
  | pod :: rest =>
    if pod.Deleting then some (GoError.Other PodsFallingPhase)
    else if !pod.Running || !pod.Ready then some (GoError.Other PodsRaisingPhase)
    else getPodsLoop rest

/-- Source: `getPods`. The result is the pair `(pods, error)`. -/
def getPods (c : Client) (alcorset : AlcorSet) : (List Pod × Option GoError) × Client :=
  match c.ListPods alcorset.Name with
  | (Except.error err, c1) => (([], some err), c1)
  | (Except.ok pods, c1) =>
    if alcorset.Spec.Sequence then
      match getPodsLoop pods with
      | some err => ((pods, some err), c1)
      | none => ((pods, none), c1)
    else ((pods, none), c1)

/-- The variables of the sequential loop of `tearDownPods`: `index`, whether
`pop` is non-nil, and the loop variable `pod`. A non-nil `pop` is `&pod`, the
address of the loop variable; what it points to is the value of `pod`. -/
structure PopState where
  index : Int
  pop : Bool
  pod : Option Pod
  deriving DecidableEq, Repr

/-- The sequential loop of `tearDownPods`: every iteration assigns the next
element to the loop variable `pod`; `_index > index` updates `index` and sets
`pop = &pod`. `none` is a panic in `getIndexByName`. -/
def popLoop : List Pod → PopState → Option PopState
  | [], st => some st
  | pod :: rest, st =>
    match getIndexByName pod.Name with
    | none => none
    | some _index =>
      if _index > st.index then popLoop rest { index := _index, pop := true, pod := some pod }
      else popLoop rest { st with pod := some pod }

/-- The loop of `tearDownPods` in the bulk case: a failed delete ends it. -/
def bulkLoop (border : Int) : List Pod → Client → Option GoError × Client
  | [], c => (none, c)
  | pod :: rest, c =>
    match getIndexByName pod.Name with
    | none => (some GoError.Panic, c)
    | some idx =>
      if idx ≥ border then
        match c.DeletePod pod.Name with
        | (some err, c1) => (some err, c1)
        | (none, c1) => bulkLoop border rest c1
      else bulkLoop border rest c

/-- Source: `tearDownPods`. In the sequential case `client.Delete` receives
`pop`: nil (a panic before any call reaches the store) or the address of the
loop variable. -/
def tearDownPods (c : Client) (als : AlcorSet) (pods : List Pod) (deleteAll : Bool) :
    Option GoError × Client :=
  if als.Spec.Sequence then
    match popLoop pods { index := -1, pop := false, pod := none } with
    | none => (some GoError.Panic, c)
    | some st =>
      match (if st.pop then st.pod else none) with
      | none => (some GoError.Panic, c)
      | some target => c.DeletePod target.Name
  else
    let border := if deleteAll then 0 else als.Spec.Replicas
    bulkLoop border pods c

/-- Reduction of an integer to the range of a 64 bit `int`. -/
def int64 (x : Int) : Int :=
  (x + 9223372036854775808) % 18446744073709551616 - 9223372036854775808

/-- Number of rounds of `for i := 0; i != n; i++` when nothing leaves the
loop early: `n` modulo `2^64`. -/
def loopCount (n : Int) : Nat :=
  (n % 18446744073709551616).toNat

/-- The inner loop of `createPod`: `rounds` rounds are left, `idx` is the
loop counter and `cur` the pair `(podName, podHostname)` assigned so far; the
loop is left at the first name that is no key of `podMap`. -/
def scanPodName (als : AlcorSet) (podMap : List (GoString × Pod)) :
    Nat → Int → GoString × GoString → GoString × GoString
  | 0, _, cur => cur
  | rounds + 1, idx, _ =>
    if (podMap.lookup (getPodName als idx)).isNone then
      (getPodName als idx, getPodHostname als idx)
    else
      scanPodName als podMap rounds (int64 (idx + 1)) (getPodName als idx, getPodHostname als idx)

/-- The record step of `createPod` (the same in the VPC and the plain
branch): a non-empty status IP that `Status.ClaimedIPs` does not contain is
appended and the status is updated. -/
def recordClaimedIP (c : Client) (als : AlcorSet) (ip : GoString) :
    Option GoError × AlcorSet × Client :=
  if ip ≠ [] ∧ contains (als.Status.ClaimedIPs.getD []) ip = false then
    let als1 := { als with
      Status := { als.Status with ClaimedIPs := some (als.Status.ClaimedIPs.getD [] ++ [ip]) } }
    match c.StatusUpdate als1 with
    | (err, c1) => (err, als1, c1)
  else (none, als, c)

/-- Source: `newPodForCR`: name, hostname, the owner's app label and the IP
annotation taken from the claim. -/
def newPodForCR (als : AlcorSet) (name hostname ip : GoString) : Pod :=
  ⟨name, hostname, some als.Name, ip, false, false, false⟩

/-- What one round of the outer loop of `createPod` ends in: a `return` of
the function, or the next round. -/
inductive SlotResult where
  | Return (requeue : Bool) (err : Option GoError) (als : AlcorSet) (c : Client)
  | Continue (podMap : List (GoString × Pod)) (als : AlcorSet) (c : Client)

/-- One round of the outer loop of `createPod`. `SetControllerReference`
cannot fail for a fresh pod in the owner's namespace. -/
def createPodSlot (c : Client) (als : AlcorSet) (podMap : List (GoString × Pod)) : SlotResult :=
  match scanPodName als podMap (loopCount als.Spec.Replicas) 0 ([], []) with
  | (podName, podHostname) =>
    match (if als.Spec.OnVPC then getVPCIPClaimRef c als podName
           else getIPClaimRef c als podName) with
    | ((_, some _), c1) => SlotResult.Return true none als c1
    | ((none, none), c1) => SlotResult.Return true none als c1
    | ((some claimRef, none), c1) =>
      match recordClaimedIP c1 als claimRef.IP with
      | (some err, als1, c2) => SlotResult.Return false (some err) als1 c2
      | (none, als1, c2) =>
        match c2.GetPod podName with
        | ((_, err), c3) =>
          if err = some GoError.NotFound then
            match c3.CreatePod (newPodForCR als1 podName podHostname claimRef.IP) with
            | (some e, c4) => SlotResult.Return false (some e) als1 c4
            | (none, c4) =>
              match c4.StatusUpdate
                  { als1 with Status := { als1.Status with Count := als1.Status.Count + 1 } } with
              | (some e, c5) =>
                SlotResult.Return false (some e)
                  { als1 with Status := { als1.Status with Count := als1.Status.Count + 1 } } c5
              | (none, c5) =>
                SlotResult.Continue
                  ((podName, newPodForCR als1 podName podHostname claimRef.IP) :: podMap)
                  { als1 with Status := { als1.Status with Count := als1.Status.Count + 1 } } c5
          else SlotResult.Continue podMap als1 c3

/-- The outer loop of `createPod`, `rounds` rounds being left. -/
def createPodLoop : Nat → Client → AlcorSet → List (GoString × Pod) →
    (Bool × Option GoError) × AlcorSet × Client
  | 0, c, als, _ => ((false, none), als, c)
  | rounds + 1, c, als, podMap =>
    match createPodSlot c als podMap with
    | SlotResult.Return requeue err als1 c1 => ((requeue, err), als1, c1)
    | SlotResult.Continue podMap1 als1 c1 => createPodLoop rounds c1 als1 podMap1

/-- Source: `createPod`. The result is the pair `(requeue, error)`. -/
def createPod (c : Client) (als : AlcorSet) (pods : List Pod) :
    (Bool × Option GoError) × AlcorSet × Client :=
  createPodLoop
    (loopCount (if als.Spec.Sequence then 1 else int64 (als.Spec.Replicas - pods.length)))
    c als (getPodMap pods)

/-- The delete loop of `deleteIPClaims` and `deleteVPCIPClaims`: the status
IP of each claim is appended to `claimedIPs`, then the claim is deleted; a
failed delete ends the function. -/
def deleteClaimsLoop (kind : ClaimKind) :
    List Claim → List GoString → Client → (Option GoError × List GoString) × Client
  | [], claimedIPs, c => ((none, claimedIPs), c)
  | claim :: rest, claimedIPs, c =>
    match c.DeleteClaim kind claim.Name with
    | (some err, c1) => ((some err, claimedIPs ++ [claim.IP]), c1)
    | (none, c1) => deleteClaimsLoop kind rest (claimedIPs ++ [claim.IP]) c1

/-- Source: `deleteIPClaims`. `ipLeft` collects the entries `ip` of
`Status.ClaimedIPs` for which `contains(claimedIPs, ip)` holds. -/
def deleteIPClaims (c : Client) (als : AlcorSet) : Option GoError × AlcorSet × Client :=
  match c.ListClaims ClaimKind.ip als.Name with
  | (Except.error err, c1) =>
    if err = GoError.NotFound then (none, als, c1)
    else (some (GoError.Other ("Failed to release ipclaims, list: " ++ err.Error)), als, c1)
  | (Except.ok ipclaims, c1) =>
    match deleteClaimsLoop ClaimKind.ip ipclaims [] c1 with
    | ((some err, _), c2) =>
      (some (GoError.Other ("Failed to release ipclaims, delete: " ++ err.Error)), als, c2)
    | ((none, claimedIPs), c2) =>
      let ipLeft := (als.Status.ClaimedIPs.getD []).filter (fun ip => contains claimedIPs ip)
      let als1 := { als with Status := { als.Status with ClaimedIPs := some ipLeft } }
      match c2.StatusUpdate als1 with
      | (err, c3) => (err, als1, c3)

/-- Source: `deleteVPCIPClaims`. As `deleteIPClaims`, but the status is
written only when `len(ipLeft) < len(als.Status.ClaimedIPs)`. -/
def deleteVPCIPClaims (c : Client) (als : AlcorSet) : Option GoError × AlcorSet × Client :=
  match c.ListClaims ClaimKind.vpc als.Name with
  | (Except.error err, c1) =>
    if err = GoError.NotFound then (none, als, c1)
    else (some (GoError.Other ("Failed to release vpcipclaims, list: " ++ err.Error)), als, c1)
  | (Except.ok vpcipclaims, c1) =>
    match deleteClaimsLoop ClaimKind.vpc vpcipclaims [] c1 with
    | ((some err, _), c2) =>
      (some (GoError.Other ("Failed to release vpcipclaims, delete: " ++ err.Error)), als, c2)
    | ((none, claimedIPs), c2) =>
      let ipLeft := (als.Status.ClaimedIPs.getD []).filter (fun ip => contains claimedIPs ip)
      if ipLeft.length < (als.Status.ClaimedIPs.getD []).length then
        let als1 := { als with Status := { als.Status with ClaimedIPs := some ipLeft } }
        match c2.StatusUpdate als1 with
        | (err, c3) => (err, als1, c3)
      else (none, als, c2)

/-! ## The reconcile function (`alcorset_controller.go`) -/

/-- The type `reconcile.Result`, as far as the controller sets it. -/
structure Result where
  Requeue : Bool
  deriving DecidableEq, Repr

/-- The branch of `Reconcile` for an owner with a deletion marker
(`als.GetDeletionTimestamp() != nil`). -/
def reconcileDeleting (c : Client) (als : AlcorSet) : (Result × Option GoError) × Client :=
  match getPods c als with
  | ((_, some err), c1) =>
    if err.Error = PodsRaisingPhase then ((⟨false⟩, none), c1)
    else if err.Error = PodsFallingPhase then ((⟨true⟩, none), c1)
    else ((⟨false⟩, some err), c1)
  | ((pods, none), c1) =>
    if pods.length > 0 then
      match tearDownPods c1 als pods true with
      | (err, c2) => ((⟨false⟩, err), c2)
    else if contains als.Finalizers FinalizerIPClaim then
      match (if (als.Status.ClaimedIPs.getD []).length > 0 then deleteIPClaims c1 als
             else (none, als, c1)) with
      | (some err, _, c2) => ((⟨false⟩, some err), c2)
      | (none, als1, c2) =>
        match removeFinalizer c2 als1 FinalizerIPClaim with
        | (some err, _, c3) =>
          ((⟨false⟩, some (GoError.Other ("Failed to remove finalizer: " ++ err.Error))), c3)
        | (none, _, c3) => ((⟨false⟩, none), c3)
    else if contains als.Finalizers FinalizerVPCIPClaim then
      match (if (als.Status.ClaimedIPs.getD []).length > 0 then deleteVPCIPClaims c1 als
             else (none, als, c1)) with
      | (some err, _, c2) => ((⟨false⟩, some err), c2)
      | (none, als1, c2) =>
        match removeFinalizer c2 als1 FinalizerVPCIPClaim with
        | (some err, _, c3) =>
          ((⟨false⟩, some (GoError.Other ("Failed to remove finalizer: " ++ err.Error))), c3)
        | (none, _, c3) => ((⟨false⟩, none), c3)
    else ((⟨false⟩, none), c1)

/-- The list `finsToAdd` of `Reconcile`. -/
def finsToAdd (als : AlcorSet) : List GoString :=
  if als.Spec.OnVPC then
    if !contains als.Finalizers FinalizerVPCIPClaim then [FinalizerVPCIPClaim] else []
  else
    if !contains als.Finalizers FinalizerIPClaim then [FinalizerIPClaim] else []

/-- The part of `Reconcile` for a live owner that follows the finalizer
step: `initStatus`, `getPods`, and the comparison of the pod count with
`Spec.Replicas`. -/
def reconcileScale (c : Client) (als : AlcorSet) : (Result × Option GoError) × Client :=
  match initStatus c als with
  | (some err, _, c1) => ((⟨false⟩, some err), c1)
  | (none, als1, c1) =>
    match getPods c1 als1 with
    | ((_, some err), c2) =>
      if err.Error = PodsRaisingPhase then ((⟨false⟩, none), c2)
      else if err.Error = PodsFallingPhase then ((⟨true⟩, none), c2)
      else ((⟨false⟩, some err), c2)
    | ((pods, none), c2) =>
      if (pods.length : Int) > als1.Spec.Replicas then
        match tearDownPods c2 als1 pods false with
        | (err, c3) => ((⟨false⟩, err), c3)
      else if (pods.length : Int) ≠ als1.Spec.Replicas then
        match createPod c2 als1 pods with
        | ((_, some err), _, c3) => ((⟨false⟩, some err), c3)
        | ((requeue, none), _, c3) => if requeue then ((⟨true⟩, none), c3) else ((⟨false⟩, none), c3)
      else ((⟨false⟩, none), c2)

/-- The branch of `Reconcile` for a live owner: the finalizer step, then
`reconcileScale`; only a failed `addFinalizers` returns at the finalizer
step. -/
def reconcileLive (c : Client) (als : AlcorSet) : (Result × Option GoError) × Client :=
  if (finsToAdd als).length ≠ 0 then
    match addFinalizers c als (finsToAdd als) with
    | (some err, _, c1) =>
      ((⟨false⟩, some (GoError.Other ("Failed to add finalizers: " ++ err.Error))), c1)
    | (none, als1, c1) => reconcileScale c1 als1
  else reconcileScale c als

/-- Source: `ReconcileAlcorSet.Reconcile`, for the owner the request
names. -/
def Reconcile (c : Client) : (Result × Option GoError) × Client :=
  match c.GetAlcorSet with
  | (Except.error err, c1) =>
    if err = GoError.NotFound then ((⟨false⟩, none), c1) else ((⟨false⟩, some err), c1)
  | (Except.ok als, c1) =>
    if als.Deleting then reconcileDeleting c1 als else reconcileLive c1 als

/-- A client at the start of a reconcile call: the store `w`, no call issued
yet, the fault schedule `faults`. -/
def Client.start (w : World) (faults : Nat → Option GoError) : Client :=
  ⟨w, [], faults⟩

/-- The fault schedule without faults. -/
def noFaults : Nat → Option GoError := fun _ => none

/-! ## Example objects -/

/-- An owner named `web` with hostname prefix `web`. -/
def exOwner (replicas : Int) (onVPC sequence deleting : Bool) (fins : List GoString)
    (ips : Option (List GoString)) : AlcorSet :=
  ⟨['w', 'e', 'b'], fins, deleting, ⟨replicas, onVPC, ['w', 'e', 'b'], sequence⟩, ⟨0, ips⟩⟩

/-- A pod of the owner `web`; `ready` stands for running and ready. -/
def exPod (name : String) (deleting ready : Bool) : Pod :=
  ⟨name.toList, name.toList, some ['w', 'e', 'b'], [], deleting, ready, ready⟩

/-- A claim of the owner `web` with the given status IP. -/
def exClaim (name ip : String) : Claim :=
  ⟨name.toList, some ['w', 'e', 'b'], ip.toList⟩

/-! ## Observations on calls and stores -/

/-- The calls that only read the owner, list pods or delete a pod. -/
def Op.isPodCall : Op → Bool
  | Op.GetAlcorSet => true
  | Op.ListPods => true
  | Op.DeletePod _ => true
  | _ => false

/-- The calls that change a stored object. -/
def Op.isMutation : Op → Bool
  | Op.CreatePod _ => true
  | Op.DeletePod _ => true
  | Op.Update _ => true
  | Op.StatusUpdate _ => true
  | Op.CreateClaim _ _ => true
  | Op.DeleteClaim _ _ => true
  | _ => false

/-- The finalizer list of the stored owner. -/
def World.fins (w : World) : Option (List GoString) :=
  w.owner.map (fun o => o.Finalizers)

/-- The claimed IPs of the stored owner (`[]` for a nil slice or when there
is no owner). -/
def World.claimedIPs (w : World) : List GoString :=
  match w.owner with
  | none => []
  | some o => o.Status.ClaimedIPs.getD []

/-- A store for the deletion examples: the owner `web` carries a deletion
marker, the plain finalizer and one claimed IP; the pod `web-0` and its claim
still exist. -/
def exDeletingWorld : World :=
  ⟨some (exOwner 1 false false true [FinalizerIPClaim] (some ["10.0.0.5".toList])),
    [exPod "web-0" false true], [exClaim "web-0" "10.0.0.5"], []⟩

/-- A converged store: the owner `web` in sequential mode with two replicas,
its finalizer and two claimed IPs; both pods run and are ready. -/
def exFixedWorld : World :=
  ⟨some (exOwner 2 false true false [FinalizerIPClaim]
      (some ["10.0.0.5".toList, "10.0.0.6".toList])),
    [exPod "web-0" false true, exPod "web-1" false true],
    [exClaim "web-0" "10.0.0.5", exClaim "web-1" "10.0.0.6"], []⟩

/-- The claimed IPs of an owner object (`[]` for a nil slice). -/
def AlcorSet.ips (als : AlcorSet) : List GoString :=
  als.Status.ClaimedIPs.getD []

/-- The owner object a round of `createPod` ends with. -/
def SlotResult.als : SlotResult → AlcorSet
  | SlotResult.Return _ _ als _ => als
  | SlotResult.Continue _ als _ => als

/-- The client a round of `createPod` ends with. -/
def SlotResult.client : SlotResult → Client
  | SlotResult.Return _ _ _ c => c
  | SlotResult.Continue _ _ c => c

/-- A step from the client `c` and the owner object `als` to `c1` and `als1`
keeps the stored finalizer list, keeps the claimed IPs free of duplicates in
the object and in the store, and only adds to the calls issued. -/
def Keeps (c : Client) (als : AlcorSet) (c1 : Client) (als1 : AlcorSet) : Prop :=
  c1.world.fins = c.world.fins ∧
    (als.ips.Nodup → c.world.claimedIPs.Nodup → als1.ips.Nodup ∧ c1.world.claimedIPs.Nodup) ∧
    c.calls <+: c1.calls

/-- The finalizer the flag `Spec.OnVPC` of an owner asks for. -/
def requiredFinalizer (als : AlcorSet) : GoString :=
  if als.Spec.OnVPC then FinalizerVPCIPClaim else FinalizerIPClaim

/-- The owner object with the required finalizer appended. -/
def withFinalizer (als : AlcorSet) : AlcorSet :=
  { als with Finalizers := als.Finalizers ++ [requiredFinalizer als] }

/-- The calls of a cycle that stops at the finalizer step: the read of the
owner and the update of the owner. -/
def Op.isFinalizerStep : Op → Bool
  | Op.GetAlcorSet => true
  | Op.Update _ => true
  | _ => false

/-- The first call of `reconcileScale`: the status update of `initStatus`
when `Status.ClaimedIPs` is nil, else the listing of pods. -/
def firstScaleCall (als : AlcorSet) : Op :=
  if als.Status.ClaimedIPs = none then
    Op.StatusUpdate { als with Status := { als.Status with ClaimedIPs := some [] } }
  else Op.ListPods

/-- A fresh store: the live owner `web` with two replicas, no finalizer and a
nil `Status.ClaimedIPs`; no pods, no claims. -/
def exFreshWorld : World :=
  ⟨some (exOwner 2 false false false [] none), [], [], []⟩

/-! ## Sequences of reconcile calls -/

/-- One call in a sequence of `Reconcile` calls on an owner: the store the
call finds (the finalizer list of its owner is set aside: the call finds the
list the call before it left) and the fault schedule of the call. -/
structure Round where
  world : World
  faults : Nat → Option GoError

/-- The stored finalizer list after the `Reconcile` call of the round `r`,
when the call finds the finalizer list `fins`. -/
def finalizersAfter (fins : List GoString) (r : Round) : List GoString :=
  match r.world.owner with
  | none => fins
  | some o =>
    ((Reconcile (Client.start
      { r.world with owner := some { o with Finalizers := fins } } r.faults)).2.world.fins).getD fins

/-- The stored finalizer list after a sequence of `Reconcile` calls that
starts from an empty finalizer list. -/
def finalizersAfterAll (rounds : List Round) : List GoString :=
  rounds.foldl finalizersAfter []

/-! ## The deletion branch: names for its parts -/

/-- The finalizer that guards the claims of a kind. -/
def claimFinalizer : ClaimKind → GoString
  | ClaimKind.ip => FinalizerIPClaim
  | ClaimKind.vpc => FinalizerVPCIPClaim

/-- The claim kind the deletion branch of `Reconcile` handles: the plain
kind when `FinalizerIPClaim` is present, else the VPC kind. -/
def deletionKind (als : AlcorSet) : ClaimKind :=
  if contains als.Finalizers FinalizerIPClaim then ClaimKind.ip else ClaimKind.vpc

/-- The owner object without the finalizer `fin`. -/
def withoutFinalizer (als : AlcorSet) (fin : GoString) : AlcorSet :=
  { als with Finalizers := als.Finalizers.filter (fun f => f ≠ fin) }

/-- A store for the deletion examples: the owner `web` carries a deletion
marker and the plain finalizer, its `Status.ClaimedIPs` is empty, no pod is
left, and the claim `web-0` exists without a status IP. -/
def exUnfulfilledWorld : World :=
  ⟨some (exOwner 1 false false true [FinalizerIPClaim] (some [])), [],
    [exClaim "web-0" ""], []⟩

/-- A store for the deletion examples: the owner `web` carries a deletion
marker, the plain finalizer and one claimed IP; no pod is left and the claim
`web-0` holds that IP. -/
def exClaimedWorld : World :=
  ⟨some (exOwner 1 false false true [FinalizerIPClaim] (some ["10.0.0.5".toList])), [],
    [exClaim "web-0" "10.0.0.5"], []⟩

/-- The claim-deleting function of a kind. -/
def deleteClaimsOf : ClaimKind → Client → AlcorSet → Option GoError × AlcorSet × Client
  | ClaimKind.ip => deleteIPClaims
  | ClaimKind.vpc => deleteVPCIPClaims

/-- Step 3 of the deletion branch of `Reconcile` for one claim kind, in the
shape both branches of the source write out: the claim-deleting function is
called when `len(als.Status.ClaimedIPs) > 0`, then the finalizer is
removed. -/
def deletionStep3 (kind : ClaimKind) (c : Client) (als : AlcorSet) :
    (Result × Option GoError) × Client :=
  match (if (als.Status.ClaimedIPs.getD []).length > 0 then deleteClaimsOf kind c als
         else (none, als, c)) with
  | (some err, _, c2) => ((⟨false⟩, some err), c2)
  | (none, als1, c2) =>
    match removeFinalizer c2 als1 (claimFinalizer kind) with
    | (some err, _, c3) =>
      ((⟨false⟩, some (GoError.Other ("Failed to remove finalizer: " ++ err.Error))), c3)
    | (none, _, c3) => ((⟨false⟩, none), c3)

/-! ## Teardown and creation: names for their parts -/

/-- Whether a byte is a decimal digit. -/
def isDigit (c : Char) : Bool :=
  decide (48 ≤ c.toNat ∧ c.toNat ≤ 57)

/-- A decimal number in the syntax `strconv.Atoi` accepts: an optional sign
followed by one or more decimal digits. -/
def isDecimal (s : GoString) : Bool :=
  match s with
  | [] => false
  | c0 :: rest =>
    if c0 = '+' ∨ c0 = '-' then !rest.isEmpty && rest.all isDigit else s.all isDigit

/-- The last field of `strings.Split(podName, PodNameIndexSep)` (`[]` if
there were no field). -/
def lastSegment (podName : GoString) : GoString :=
  ((Split podName PodNameIndexSep).getLast?).getD []

theorem splitLoop_ne_nil (sep : Char) (s cur : List Char) : splitLoop sep s cur ≠ [] := by
  induction s generalizing cur with
  | nil => simp [splitLoop]
  | cons c cs ih =>
    unfold splitLoop
    split
    · simp
    · exact ih _

theorem splitLoop_no_sep (sep : Char) (s cur : List Char) (h : sep ∉ s) :
    splitLoop sep s cur = [cur.reverse ++ s] := by
  induction s generalizing cur with
  | nil => simp [splitLoop]
  | cons c cs ih =>
    have hc : c ≠ sep := fun e => h (by simp [e])
    have hcs : sep ∉ cs := fun e => h (by simp [e])
    simp [splitLoop, hc, ih _ hcs]

theorem getLast?_cons_ne_nil {α : Type} (a : α) (l : List α) (h : l ≠ []) :
    (a :: l).getLast? = l.getLast? := by
  cases l with
  | nil => exact absurd rfl h
  | cons b t => simp [List.getLast?_cons_cons]

theorem splitLoop_getLast_append (sep : Char) (xs ys cur : List Char) :
    (splitLoop sep (xs ++ sep :: ys) cur).getLast? = (splitLoop sep ys []).getLast? := by
  induction xs generalizing cur with
  | nil =>
    simp only [List.nil_append, splitLoop, if_true]
    rw [getLast?_cons_ne_nil _ _ (splitLoop_ne_nil sep ys [])]
  | cons c cs ih =>
    simp only [List.cons_append, splitLoop]
    split
    · rw [getLast?_cons_ne_nil _ _ (splitLoop_ne_nil sep _ [])]
      exact ih []
    · exact ih _

theorem Split_last_field (sep : Char) (xs ys : List Char) (h : sep ∉ ys) :
    (Split (xs ++ sep :: ys) sep)[(Split (xs ++ sep :: ys) sep).length - 1]? = some ys := by
  rw [← List.getLast?_eq_getElem?]
  unfold Split
  rw [splitLoop_getLast_append, splitLoop_no_sep sep ys [] h]
  simp

theorem ofNat_digit_toNat (d : Nat) (h : d < 10) : (Char.ofNat (48 + d)).toNat = 48 + d := by
  interval_cases d <;> rfl

theorem fmtNat_digits (fuel n : Nat) :
    ∀ c ∈ fmtNat fuel n, 48 ≤ c.toNat ∧ c.toNat ≤ 57 := by
  induction fuel generalizing n with
  | zero => simp [fmtNat]
  | succ k ih =>
    intro c hc
    unfold fmtNat at hc
    split at hc
    · simp only [List.mem_singleton] at hc
      subst hc
      rw [ofNat_digit_toNat n (by omega)]; omega
    · rcases List.mem_append.mp hc with h | h
      · exact ih _ c h
      · simp only [List.mem_singleton] at h
        subst h
        rw [ofNat_digit_toNat _ (Nat.mod_lt _ (by norm_num))]
        have := Nat.mod_lt n (show 10 > 0 by norm_num)
        omega

theorem atoiFast_append (xs ys : List Char) (n : Nat) :
    atoiFast (xs ++ ys) n = (atoiFast xs n).bind (fun m => atoiFast ys m) := by
  induction xs generalizing n with
  | nil => simp [atoiFast]
  | cons c cs ih =>
    simp only [List.cons_append, atoiFast]
    split
    · exact ih _
    · simp

theorem atoiFast_fmtNat (fuel n : Nat) (h : n < 10 ^ fuel) :
    atoiFast (fmtNat fuel n) 0 = some n := by
  induction fuel generalizing n with
  | zero => simp at h; subst h; simp [fmtNat, atoiFast]
  | succ k ih =>
    unfold fmtNat
    split
    · rename_i h10
      simp [atoiFast, ofNat_digit_toNat n h10]
      omega
    · rename_i h10
      have hq : n / 10 < 10 ^ k := by
        rw [Nat.div_lt_iff_lt_mul (by norm_num)]
        rw [pow_succ] at h; exact h
      have hm := Nat.mod_lt n (show 10 > 0 by norm_num)
      rw [atoiFast_append, ih _ hq]
      simp [atoiFast, ofNat_digit_toNat _ hm]
      omega

theorem fmtNat_length_le (fuel n : Nat) : (fmtNat fuel n).length ≤ fuel := by
  induction fuel generalizing n with
  | zero => simp [fmtNat]
  | succ k ih =>
    unfold fmtNat
    split
    · simp
    · have := ih (n / 10)
      simp; omega

theorem fmtNat_length_pos (fuel n : Nat) : 0 < (fmtNat (fuel + 1) n).length := by
  unfold fmtNat
  split <;> simp

/-- Shrinking the fuel does not change the digits as long as it covers them. -/
theorem fmtNat_fuel (k fuel n : Nat) (h : n < 10 ^ k) (hk : 0 < k) (hf : k ≤ fuel) :
    fmtNat fuel n = fmtNat k n := by
  induction k generalizing fuel n with
  | zero => omega
  | succ j ih =>
    obtain ⟨f, rfl⟩ : ∃ f, fuel = f + 1 := ⟨fuel - 1, by omega⟩
    unfold fmtNat
    split
    · rfl
    · rename_i h10
      have hq : n / 10 < 10 ^ j := by
        rw [Nat.div_lt_iff_lt_mul (by norm_num)]
        rw [pow_succ] at h; exact h
      have hj : 0 < j := by
        rcases Nat.eq_zero_or_pos j with h0 | h0
        · subst h0; simp at hq; omega
        · exact h0
      rw [ih f (n / 10) hq hj (by omega)]

theorem Atoi_fmtNat (n : Nat) (h : n < 10 ^ 18) : Atoi (fmtNat 20 n) = ((n : Int), none) := by
  rw [fmtNat_fuel 18 20 n h (by norm_num) (by norm_num)]
  have hlen := fmtNat_length_le 18 n
  have hpos := fmtNat_length_pos 17 n
  have hdig := fmtNat_digits 18 n
  have hval := atoiFast_fmtNat 18 n h
  unfold Atoi
  rw [if_pos ⟨hpos, by omega⟩]
  cases hs : fmtNat 18 n with
  | nil => rw [hs] at hpos; simp at hpos
  | cons c0 rest =>
    rw [hs] at hdig hval
    have hc := hdig c0 (by simp)
    have h1 : c0 ≠ '-' := by
      intro e; rw [e] at hc; revert hc; decide
    have h2 : c0 ≠ '+' := by
      intro e; rw [e] at hc; revert hc; decide
    simp [h1, h2, hval]

/-- C1. Naming round trip: for every owner (its name may itself contain the
separator) and every index `0 ≤ i < 1000`, `getIndexByName` applied to
`getPodName owner i` returns, without failure, the index `i`. -/
theorem getIndexByName_getPodName (alcorset : AlcorSet) (i : Int)
    (h0 : 0 ≤ i) (h1 : i < 1000) :
    getIndexByName (getPodName alcorset i) = some i := by
  obtain ⟨n, rfl⟩ := Int.eq_ofNat_of_zero_le h0
  have hn : n < 1000 := by omega
  have hfmt : fmtInt (n : Int) = fmtNat 20 n := by
    unfold fmtInt
    rw [if_neg (by omega)]
    simp
  have hsep : PodNameIndexSep ∉ fmtNat 20 n := by
    intro hmem
    have := fmtNat_digits 20 n _ hmem
    revert this
    decide
  unfold getIndexByName getPodName
  rw [hfmt]
  simp only []
  rw [Split_last_field PodNameIndexSep alcorset.Name (fmtNat 20 n) hsep]
  simp only []
  rw [Atoi_fmtNat n (by omega)]

/-- Witness for C1: the owner `a-b` (a name holding the separator) and
index 12. -/
theorem getIndexByName_getPodName_witness :
    (0 : Int) ≤ 12 ∧ (12 : Int) < 1000 ∧
      getIndexByName (getPodName
        ⟨['a', '-', 'b'], [], false, ⟨2, false, ['a'], false⟩, ⟨0, none⟩⟩ 12) = some 12 :=
  ⟨by decide, by decide, getIndexByName_getPodName _ 12 (by decide) (by decide)⟩


theorem splitLoop_fields_no_sep (sep : Char) (s cur : List Char) (hcur : sep ∉ cur) :
    ∀ f ∈ splitLoop sep s cur, sep ∉ f := by
  induction s generalizing cur with
  | nil =>
    intro f hf
    simp only [splitLoop, List.mem_singleton] at hf
    subst hf
    simpa using hcur
  | cons c cs ih =>
    intro f hf
    unfold splitLoop at hf
    split at hf
    · rcases List.mem_cons.mp hf with h | h
      · subst h; simpa using hcur
      · exact ih [] (by simp) f h
    · rename_i hc
      refine ih (c :: cur) ?_ f hf
      intro hmem
      rcases List.mem_cons.mp hmem with h | h
      · exact hc h.symm
      · exact hcur h

theorem parseUintLoop_le (s : List Char) (n : Nat) (h : n ≤ maxUint64) :
    (parseUintLoop s n).1 ≤ maxUint64 := by
  induction s generalizing n with
  | nil => simpa [parseUintLoop] using h
  | cons c cs ih =>
    unfold parseUintLoop
    split
    · split
      · simp
      · simp only []
        split
        · simp
        · exact ih _ (by omega)
    · simp [maxUint64]

theorem ParseInt_nonneg (s : GoString) (h : '-' ∉ s) : 0 ≤ (ParseInt s).1 := by
  unfold ParseInt
  cases s with
  | nil => simp
  | cons c0 rest =>
    have hc : c0 ≠ '-' := fun e => h (by simp [e])
    simp only [hc, decide_False, Bool.not_false, Bool.true_and, Bool.false_and, or_false]
    split
    · simp
    · split
      · simp [maxInt64]
      · simp

theorem Atoi_nonneg (s : GoString) (h : '-' ∉ s) : 0 ≤ (Atoi s).1 := by
  unfold Atoi
  split
  · cases s with
    | nil => simp
    | cons c0 rest =>
      have hc : c0 ≠ '-' := fun e => h (by simp [e])
      simp only [hc, false_or, if_false]
      split
      · simp
      · split <;> simp
  · exact ParseInt_nonneg s h

/-- The access `fields[len(fields)-1]` of `getIndexByName` is always in
range, and the index returned is never negative. -/
theorem getIndexByName_total (podName : GoString) :
    ∃ i : Int, getIndexByName podName = some i ∧ 0 ≤ i := by
  unfold getIndexByName
  simp only []
  have hne := splitLoop_ne_nil PodNameIndexSep podName []
  rw [← List.getLast?_eq_getElem?]
  cases hl : (Split podName PodNameIndexSep).getLast? with
  | none =>
    rw [List.getLast?_eq_none_iff] at hl
    exact absurd hl hne
  | some field =>
    refine ⟨(Atoi field).1, rfl, ?_⟩
    have hmem : field ∈ Split podName PodNameIndexSep := List.mem_of_getLast?_eq_some hl
    exact Atoi_nonneg field (splitLoop_fields_no_sep PodNameIndexSep podName [] (by simp) field hmem)


/-! ## Theorems: teardown -/

/-- The sequential loop never fails; it leaves in the loop variable the last
element of the list, and a `pop` that was set stays set. -/
theorem popLoop_spec (pods : List Pod) (st : PopState) :
    ∃ st1, popLoop pods st = some st1 ∧
      st1.pod = (match pods.getLast? with | none => st.pod | some p => some p) ∧
      (st.pop = true → st1.pop = true) ∧
      (st.index < 0 → pods ≠ [] → st1.pop = true) := by
  induction pods generalizing st with
  | nil => exact ⟨st, rfl, rfl, fun h => h, fun _ h => absurd rfl h⟩
  | cons p rest ih =>
    obtain ⟨i, hi, hi0⟩ := getIndexByName_total p.Name
    unfold popLoop
    rw [hi]
    simp only []
    split
    · obtain ⟨st1, h1, h2, h3, _⟩ := ih { index := i, pop := true, pod := some p }
      refine ⟨st1, h1, ?_, fun _ => h3 rfl, fun _ _ => h3 rfl⟩
      rw [h2]
      cases rest with
      | nil => rfl
      | cons q t =>
        rw [List.getLast?_cons_cons, List.getLast?_eq_getLast (q :: t) (by simp)]
    · rename_i hlt
      obtain ⟨st1, h1, h2, h3, _⟩ := ih { st with pod := some p }
      refine ⟨st1, h1, ?_, fun h => h3 h, fun hneg _ => absurd hneg (by omega)⟩
      rw [h2]
      cases rest with
      | nil => rfl
      | cons q t =>
        rw [List.getLast?_cons_cons, List.getLast?_eq_getLast (q :: t) (by simp)]

/-- In the sequential case `tearDownPods` on a non-empty list issues one
delete, and its target is the pod listed LAST (the value the loop variable
holds when the loop is over), whatever the indices of the pods are. -/
theorem tearDownPods_sequence_last (c : Client) (als : AlcorSet) (pods : List Pod)
    (deleteAll : Bool) (hseq : als.Spec.Sequence = true) (hne : pods ≠ []) :
    tearDownPods c als pods deleteAll = c.DeletePod (pods.getLast hne).Name := by
  obtain ⟨st1, h1, h2, _, h4⟩ := popLoop_spec pods { index := -1, pop := false, pod := none }
  unfold tearDownPods
  rw [if_pos hseq, h1]
  simp only []
  rw [h4 (by decide) hne, if_pos rfl, h2, List.getLast?_eq_getLast _ hne]


/-- C2, at the failing input. Owner `web` in sequential mode with
`Replicas = 1` and the pods listed as `[web-2, web-0, web-1]` (indices 2, 0
and 1, pairwise distinct, all running and ready): `tearDownPods` issues one
delete, and its target is `web-1`, the pod listed last, not `web-2`, the pod
with the highest index; the same holds for the whole `Reconcile` call. For
the list `[web-1, web-0]` the one delete goes to `web-0`, the pod of
index 0. -/
theorem tearDownPods_sequence_not_highest :
    ([exPod "web-2" false true, exPod "web-0" false true, exPod "web-1" false true].map
        (fun p => getIndexByName p.Name) = [some 2, some 0, some 1]) ∧
    (tearDownPods
        (Client.start ⟨some (exOwner 1 false true false [FinalizerIPClaim] (some [])),
          [exPod "web-2" false true, exPod "web-0" false true, exPod "web-1" false true], [], []⟩
          noFaults)
        (exOwner 1 false true false [FinalizerIPClaim] (some []))
        [exPod "web-2" false true, exPod "web-0" false true, exPod "web-1" false true]
        false).2.calls = [Op.DeletePod "web-1".toList] ∧
    (Reconcile
        (Client.start ⟨some (exOwner 1 false true false [FinalizerIPClaim] (some [])),
          [exPod "web-2" false true, exPod "web-0" false true, exPod "web-1" false true], [], []⟩
          noFaults)).2.calls = [Op.GetAlcorSet, Op.ListPods, Op.DeletePod "web-1".toList] ∧
    (tearDownPods
        (Client.start ⟨some (exOwner 1 false true false [FinalizerIPClaim] (some [])),
          [exPod "web-1" false true, exPod "web-0" false true], [], []⟩ noFaults)
        (exOwner 1 false true false [FinalizerIPClaim] (some []))
        [exPod "web-1" false true, exPod "web-0" false true]
        false).2.calls = [Op.DeletePod "web-0".toList] := by
  refine ⟨?_, ?_, ?_, ?_⟩ <;> decide


/-! ## Theorems: claim deletion and the claimed-IP set -/

/-- C4, at the failing input. Owner `web` with `Status.ClaimedIPs =
[10.0.0.5, 10.0.0.9]` and one claim `web-0` with status IP `10.0.0.5`:
`deleteIPClaims` lists the claim, deletes it, returns no error, and writes
`Status.ClaimedIPs = [10.0.0.5]`: the IP of the deleted claim is kept and
`10.0.0.9`, which belonged to no deleted claim, is dropped.
`deleteVPCIPClaims` does the same; and with `Status.ClaimedIPs = [10.0.0.5]`
it writes nothing and leaves the IP of the deleted claim in the set. -/
theorem deleteIPClaims_keeps_deleted_ip :
    ((deleteIPClaims
        (Client.start ⟨some (exOwner 1 false false true [FinalizerIPClaim]
            (some ["10.0.0.5".toList, "10.0.0.9".toList])), [], [exClaim "web-0" "10.0.0.5"], []⟩
          noFaults)
        (exOwner 1 false false true [FinalizerIPClaim]
          (some ["10.0.0.5".toList, "10.0.0.9".toList]))).1 = none) ∧
    ((deleteIPClaims
        (Client.start ⟨some (exOwner 1 false false true [FinalizerIPClaim]
            (some ["10.0.0.5".toList, "10.0.0.9".toList])), [], [exClaim "web-0" "10.0.0.5"], []⟩
          noFaults)
        (exOwner 1 false false true [FinalizerIPClaim]
          (some ["10.0.0.5".toList, "10.0.0.9".toList]))).2.2.world =
      ⟨some (exOwner 1 false false true [FinalizerIPClaim] (some ["10.0.0.5".toList])),
        [], [], []⟩) ∧
    ((deleteVPCIPClaims
        (Client.start ⟨some (exOwner 1 true false true [FinalizerVPCIPClaim]
            (some ["10.0.0.5".toList, "10.0.0.9".toList])), [], [], [exClaim "web-0" "10.0.0.5"]⟩
          noFaults)
        (exOwner 1 true false true [FinalizerVPCIPClaim]
          (some ["10.0.0.5".toList, "10.0.0.9".toList]))).1 = none) ∧
    ((deleteVPCIPClaims
        (Client.start ⟨some (exOwner 1 true false true [FinalizerVPCIPClaim]
            (some ["10.0.0.5".toList, "10.0.0.9".toList])), [], [], [exClaim "web-0" "10.0.0.5"]⟩
          noFaults)
        (exOwner 1 true false true [FinalizerVPCIPClaim]
          (some ["10.0.0.5".toList, "10.0.0.9".toList]))).2.2.world =
      ⟨some (exOwner 1 true false true [FinalizerVPCIPClaim] (some ["10.0.0.5".toList])),
        [], [], []⟩) ∧
    ((deleteVPCIPClaims
        (Client.start ⟨some (exOwner 1 true false true [FinalizerVPCIPClaim]
            (some ["10.0.0.5".toList])), [], [], [exClaim "web-0" "10.0.0.5"]⟩ noFaults)
        (exOwner 1 true false true [FinalizerVPCIPClaim] (some ["10.0.0.5".toList]))).2.2.world =
      ⟨some (exOwner 1 true false true [FinalizerVPCIPClaim] (some ["10.0.0.5".toList])),
        [], [], []⟩) := by
  refine ⟨?_, ?_, ?_, ?_, ?_⟩ <;> decide

/-- When every delete succeeds the delete loop returns, in `claimedIPs`, the
status IPs of the listed claims. -/
theorem deleteClaimsLoop_ips (kind : ClaimKind) (claims : List Claim) (acc : List GoString)
    (c : Client) (h : (deleteClaimsLoop kind claims acc c).1.1 = none) :
    (deleteClaimsLoop kind claims acc c).1.2 = acc ++ claims.map (fun cl => cl.IP) := by
  induction claims generalizing acc c with
  | nil => simp [deleteClaimsLoop]
  | cons cl rest ih =>
    unfold deleteClaimsLoop at h ⊢
    cases hd : c.DeleteClaim kind cl.Name with
    | mk err c1 =>
      rw [hd] at h
      cases err with
      | some e => simp at h
      | none =>
        simp only [] at h ⊢
        rw [ih _ _ h]
        simp


/-! ## Theorems: listing pods -/

/-- C8, at the failing input. Owner `web` in sequential mode, the pods listed
as `[web-0, web-1]` with `web-0` not ready and `web-1` carrying a deletion
marker: `getPods` returns the raising signal, not the falling signal, and
`Reconcile` returns without asking for a requeue. With the same two pods
listed in the other order `getPods` returns the falling signal. -/
theorem getPods_raising_hides_falling :
    ((getPods
        (Client.start ⟨some (exOwner 2 false true false [FinalizerIPClaim] (some [])),
          [exPod "web-0" false false, exPod "web-1" true false], [], []⟩ noFaults)
        (exOwner 2 false true false [FinalizerIPClaim] (some []))).1 =
      ([exPod "web-0" false false, exPod "web-1" true false],
        some (GoError.Other PodsRaisingPhase))) ∧
    ((Reconcile
        (Client.start ⟨some (exOwner 2 false true false [FinalizerIPClaim] (some [])),
          [exPod "web-0" false false, exPod "web-1" true false], [], []⟩ noFaults)).1 =
      (⟨false⟩, none)) ∧
    ((getPods
        (Client.start ⟨some (exOwner 2 false true false [FinalizerIPClaim] (some [])),
          [exPod "web-1" true false, exPod "web-0" false false], [], []⟩ noFaults)
        (exOwner 2 false true false [FinalizerIPClaim] (some []))).1 =
      ([exPod "web-1" true false, exPod "web-0" false false],
        some (GoError.Other PodsFallingPhase))) := by
  refine ⟨?_, ?_, ?_⟩ <;> decide

/-- The signal of the sequential loop of `getPods` is decided by the first
pod that carries a deletion marker or is not running and ready: pods that are
running, ready and not terminating in front of it do not matter. -/
theorem getPodsLoop_append (good rest : List Pod)
    (h : ∀ p ∈ good, p.Deleting = false ∧ p.Running = true ∧ p.Ready = true) :
    getPodsLoop (good ++ rest) = getPodsLoop rest := by
  induction good with
  | nil => rfl
  | cons p ps ih =>
    obtain ⟨h1, h2, h3⟩ := h p (by simp)
    simp only [List.cons_append, getPodsLoop, h1, h2, h3]
    simpa using ih (fun q hq => h q (by simp [hq]))

/-- When every listed pod is running, ready and not terminating the loop of
`getPods` ends without a signal. -/
theorem getPodsLoop_all_ready (pods : List Pod)
    (h : ∀ p ∈ pods, p.Deleting = false ∧ p.Running = true ∧ p.Ready = true) :
    getPodsLoop pods = none := by
  have := getPodsLoop_append pods [] h
  simpa [getPodsLoop] using this


/-! ## Theorems: deletion of the owner -/

theorem DeletePod_frame (c : Client) (name : GoString) :
    (c.DeletePod name).2.calls = c.calls ++ [Op.DeletePod name] ∧
      (c.DeletePod name).2.world.owner = c.world.owner ∧
      (c.DeletePod name).2.world.ipclaims = c.world.ipclaims ∧
      (c.DeletePod name).2.world.vpcipclaims = c.world.vpcipclaims := by
  unfold Client.DeletePod
  split
  · simp [Client.log]
  · split <;> simp [Client.log]

theorem bulkLoop_frame (border : Int) (pods : List Pod) (c : Client) :
    (∀ op ∈ (bulkLoop border pods c).2.calls, op ∈ c.calls ∨ op.isPodCall = true) ∧
      (bulkLoop border pods c).2.world.owner = c.world.owner ∧
      (bulkLoop border pods c).2.world.ipclaims = c.world.ipclaims ∧
      (bulkLoop border pods c).2.world.vpcipclaims = c.world.vpcipclaims := by
  induction pods generalizing c with
  | nil => exact ⟨fun op h => Or.inl h, rfl, rfl, rfl⟩
  | cons p rest ih =>
    unfold bulkLoop
    split
    · exact ⟨fun op h => Or.inl h, rfl, rfl, rfl⟩
    · split
      · obtain ⟨h1, h2, h3, h4⟩ := DeletePod_frame c p.Name
        split
        · rename_i err c1 hd
          rw [hd] at h1 h2 h3 h4
          simp only [] at h1 h2 h3 h4
          refine ⟨?_, h2, h3, h4⟩
          intro op hop
          simp only [] at hop
          rw [h1] at hop
          rcases List.mem_append.mp hop with h | h
          · exact Or.inl h
          · simp only [List.mem_singleton] at h
            subst h; exact Or.inr rfl
        · rename_i c1 hd
          rw [hd] at h1 h2 h3 h4
          simp only [] at h1 h2 h3 h4
          obtain ⟨g1, g2, g3, g4⟩ := ih c1
          refine ⟨?_, g2.trans h2, g3.trans h3, g4.trans h4⟩
          intro op hop
          rcases g1 op hop with h | h
          · rw [h1] at h
            rcases List.mem_append.mp h with h | h
            · exact Or.inl h
            · simp only [List.mem_singleton] at h
              subst h; exact Or.inr rfl
          · exact Or.inr h
      · exact ih c

theorem tearDownPods_frame (c : Client) (als : AlcorSet) (pods : List Pod) (deleteAll : Bool) :
    (∀ op ∈ (tearDownPods c als pods deleteAll).2.calls, op ∈ c.calls ∨ op.isPodCall = true) ∧
      (tearDownPods c als pods deleteAll).2.world.owner = c.world.owner ∧
      (tearDownPods c als pods deleteAll).2.world.ipclaims = c.world.ipclaims ∧
      (tearDownPods c als pods deleteAll).2.world.vpcipclaims = c.world.vpcipclaims := by
  unfold tearDownPods
  split
  · split
    · exact ⟨fun op h => Or.inl h, rfl, rfl, rfl⟩
    · split
      · exact ⟨fun op h => Or.inl h, rfl, rfl, rfl⟩
      · rename_i target _
        obtain ⟨h1, h2, h3, h4⟩ := DeletePod_frame c target.Name
        refine ⟨?_, h2, h3, h4⟩
        intro op hop
        rw [h1] at hop
        rcases List.mem_append.mp hop with h | h
        · exact Or.inl h
        · simp only [List.mem_singleton] at h
          subst h; exact Or.inr rfl
  · exact bulkLoop_frame _ pods c

theorem getPods_client (c : Client) (als : AlcorSet) :
    (getPods c als).2 = c.log Op.ListPods := by
  unfold getPods Client.ListPods
  split <;> rename_i h
  · split at h
    · simp at h; simp [h.2]
    · simp at h
  · split at h
    · simp at h
    · simp only [Prod.mk.injEq] at h
      split
      · split <;> simp [h.2]
      · simp [h.2]

theorem GetAlcorSet_client (c : Client) : c.GetAlcorSet.2 = c.log Op.GetAlcorSet := by
  unfold Client.GetAlcorSet
  split
  · rfl
  · split <;> rfl

/-- C3. IP-reuse safety. In a `Reconcile` call that reads an owner with a
deletion marker, if `getPods` returns an error (the raising or falling signal
included) or a non-empty pod list, then the call issues no other calls than
the read of the owner, the listing of pods and deletes of pods: no claim is
listed or deleted (`deleteIPClaims` and `deleteVPCIPClaims`, which begin with
the listing of claims, are not invoked), the owner is not updated (no
finalizer is removed), and the stored owner and claims are as before. -/
theorem reconcile_deleting_pods_before_claims (w : World) (faults : Nat → Option GoError)
    (als : AlcorSet)
    (hown : (Client.start w faults).GetAlcorSet.1 = Except.ok als)
    (hdel : als.Deleting = true)
    (hpods : (getPods (Client.start w faults).GetAlcorSet.2 als).1.2 ≠ none ∨
      (getPods (Client.start w faults).GetAlcorSet.2 als).1.1 ≠ []) :
    (∀ op ∈ (Reconcile (Client.start w faults)).2.calls, op.isPodCall = true) ∧
      (Reconcile (Client.start w faults)).2.world.owner = w.owner ∧
      (Reconcile (Client.start w faults)).2.world.ipclaims = w.ipclaims ∧
      (Reconcile (Client.start w faults)).2.world.vpcipclaims = w.vpcipclaims := by
  have hc1 := GetAlcorSet_client (Client.start w faults)
  unfold Reconcile
  cases hg : (Client.start w faults).GetAlcorSet with
  | mk res c1 =>
    rw [hg] at hown hpods hc1
    simp only [] at hown hpods hc1
    subst hown
    simp only [hdel, if_true]
    have hc2 := getPods_client c1 als
    unfold reconcileDeleting
    cases hp : getPods c1 als with
    | mk res2 c2 =>
      obtain ⟨pods, err⟩ := res2
      rw [hp] at hpods hc2
      simp only [] at hpods hc2
      have hcalls2 : c2.calls = [Op.GetAlcorSet, Op.ListPods] := by
        rw [hc2, hc1]; simp [Client.log, Client.start]
      have hw2 : c2.world = w := by
        rw [hc2, hc1]; simp [Client.log, Client.start]
      cases err with
      | some e =>
        simp only []
        split
        · simp [hcalls2, hw2, Op.isPodCall]
        · split <;> simp [hcalls2, hw2, Op.isPodCall]
      | none =>
        have hne : pods ≠ [] := by
          rcases hpods with h | h
          · exact absurd rfl h
          · exact h
        have hlen : pods.length > 0 := List.length_pos.mpr hne
        simp only [hlen, if_true]
        obtain ⟨t1, t2, t3, t4⟩ := tearDownPods_frame c2 als pods true
        rw [hw2] at t2 t3 t4
        refine ⟨?_, t2, t3, t4⟩
        intro op hop
        rcases t1 op hop with h | h
        · rw [hcalls2] at h
          simp only [List.mem_cons, List.mem_singleton, List.not_mem_nil, or_false] at h
          rcases h with h | h <;> subst h <;> rfl
        · exact h


/-- Witness for C3: the owner `web` is being deleted while its pod `web-0`
still exists. -/
theorem reconcile_deleting_pods_before_claims_witness :
    (Client.start exDeletingWorld noFaults).GetAlcorSet.1 =
        Except.ok (exOwner 1 false false true [FinalizerIPClaim] (some ["10.0.0.5".toList])) ∧
      (exOwner 1 false false true [FinalizerIPClaim] (some ["10.0.0.5".toList])).Deleting = true ∧
      ((∀ op ∈ (Reconcile (Client.start exDeletingWorld noFaults)).2.calls,
          op.isPodCall = true) ∧
        (Reconcile (Client.start exDeletingWorld noFaults)).2.world.owner =
          exDeletingWorld.owner ∧
        (Reconcile (Client.start exDeletingWorld noFaults)).2.world.ipclaims =
          exDeletingWorld.ipclaims ∧
        (Reconcile (Client.start exDeletingWorld noFaults)).2.world.vpcipclaims =
          exDeletingWorld.vpcipclaims) :=
  ⟨rfl, rfl,
    reconcile_deleting_pods_before_claims exDeletingWorld noFaults
      (exOwner 1 false false true [FinalizerIPClaim] (some ["10.0.0.5".toList]))
      rfl rfl (Or.inr (by decide))⟩


/-! ## Theorems: the live owner -/

/-- The finalizer the flag `Spec.OnVPC` of an owner asks for. -/
theorem finsToAdd_nil_of_contains (als : AlcorSet)
    (h : contains als.Finalizers
      (if als.Spec.OnVPC then FinalizerVPCIPClaim else FinalizerIPClaim) = true) :
    finsToAdd als = [] := by
  unfold finsToAdd
  cases hv : als.Spec.OnVPC <;> simp [hv] at h ⊢ <;> exact h

/-- C7. Idempotence at the fixed point. Let a `Reconcile` call read a live
owner that carries the finalizer its flag `OnVPC` asks for and has a non-nil
`Status.ClaimedIPs`, and let the listing of pods return as many pods as
`Spec.Replicas` says (in sequential mode all of them running, ready and not
terminating). Then the call returns the empty result without error, issues
the two reads and nothing else, and leaves the store as it was; so a second
call on the store the first call left issues no mutation either. -/
theorem reconcile_fixed_point (w : World) (faults : Nat → Option GoError) (als : AlcorSet)
    (pods : List Pod)
    (hown : (Client.start w faults).GetAlcorSet.1 = Except.ok als)
    (hlive : als.Deleting = false)
    (hfin : contains als.Finalizers
      (if als.Spec.OnVPC then FinalizerVPCIPClaim else FinalizerIPClaim) = true)
    (hips : als.Status.ClaimedIPs ≠ none)
    (hlist : ((Client.start w faults).GetAlcorSet.2.ListPods als.Name).1 = Except.ok pods)
    (hcount : (pods.length : Int) = als.Spec.Replicas)
    (hseq : als.Spec.Sequence = true →
      ∀ p ∈ pods, p.Deleting = false ∧ p.Running = true ∧ p.Ready = true) :
    (Reconcile (Client.start w faults)).1 = (⟨false⟩, none) ∧
      (Reconcile (Client.start w faults)).2.calls = [Op.GetAlcorSet, Op.ListPods] ∧
      (Reconcile (Client.start w faults)).2.world = w ∧
      (∀ op ∈ (Reconcile (Client.start (Reconcile (Client.start w faults)).2.world faults)).2.calls,
        op.isMutation = false) := by
  have hc1 := GetAlcorSet_client (Client.start w faults)
  have key : Reconcile (Client.start w faults) =
      ((⟨false⟩, none), ((Client.start w faults).log Op.GetAlcorSet).log Op.ListPods) := by
    unfold Reconcile
    cases hg : (Client.start w faults).GetAlcorSet with
    | mk res c1 =>
      rw [hg] at hown hlist hc1
      simp only [] at hown hlist hc1
      subst hown
      simp only [hlive, Bool.false_eq_true, if_false]
      unfold reconcileLive
      rw [finsToAdd_nil_of_contains als hfin]
      simp only [List.length_nil, ne_eq, not_true_eq_false, if_false]
      unfold reconcileScale initStatus
      rw [if_neg hips]
      simp only []
      have hc2 := getPods_client c1 als
      have hgp : getPods c1 als = ((pods, none), c1.log Op.ListPods) := by
        unfold getPods
        cases hl : c1.ListPods als.Name with
        | mk r c2 =>
          rw [hl] at hlist
          simp only [] at hlist
          subst hlist
          have : c2 = c1.log Op.ListPods := by
            have h2 : (c1.ListPods als.Name).2 = c1.log Op.ListPods := by
              unfold Client.ListPods; split <;> rfl
            rw [hl] at h2; exact h2
          subst this
          simp only []
          split
          · rename_i hs
            rw [getPodsLoop_all_ready pods (hseq hs)]
          · rfl
      rw [hgp]
      simp only [hcount, gt_iff_lt, lt_self_iff_false, if_false, ne_eq, not_true_eq_false]
      rw [hc1]
  have hworld : (Reconcile (Client.start w faults)).2.world = w := by
    rw [key]; rfl
  have hcalls : (Reconcile (Client.start w faults)).2.calls = [Op.GetAlcorSet, Op.ListPods] := by
    rw [key]; rfl
  refine ⟨by rw [key], hcalls, hworld, ?_⟩
  rw [hworld, hcalls]
  intro op hop
  simp only [List.mem_cons, List.mem_singleton, List.not_mem_nil, or_false] at hop
  rcases hop with h | h <;> subst h <;> rfl


/-- Witness for C7: the converged store `exFixedWorld`. -/
theorem reconcile_fixed_point_witness :
    (Client.start exFixedWorld noFaults).GetAlcorSet.1 =
        Except.ok (exOwner 2 false true false [FinalizerIPClaim]
          (some ["10.0.0.5".toList, "10.0.0.6".toList])) ∧
      ((Client.start exFixedWorld noFaults).GetAlcorSet.2.ListPods ['w', 'e', 'b']).1 =
        Except.ok [exPod "web-0" false true, exPod "web-1" false true] ∧
      ((Reconcile (Client.start exFixedWorld noFaults)).1 = (⟨false⟩, none) ∧
        (Reconcile (Client.start exFixedWorld noFaults)).2.calls =
          [Op.GetAlcorSet, Op.ListPods] ∧
        (Reconcile (Client.start exFixedWorld noFaults)).2.world = exFixedWorld ∧
        (∀ op ∈ (Reconcile (Client.start
            (Reconcile (Client.start exFixedWorld noFaults)).2.world noFaults)).2.calls,
          op.isMutation = false)) :=
  ⟨rfl, rfl,
    reconcile_fixed_point exFixedWorld noFaults
      (exOwner 2 false true false [FinalizerIPClaim]
        (some ["10.0.0.5".toList, "10.0.0.6".toList]))
      [exPod "web-0" false true, exPod "web-1" false true]
      rfl rfl (by decide) (by decide) rfl (by decide) (fun _ => by decide)⟩


/-! ## Theorems: what a client call does to the stored owner -/

theorem setClaims_owner (w : World) (kind : ClaimKind) (cl : List Claim) :
    (w.setClaims kind cl).owner = w.owner := by
  cases kind <;> rfl

theorem GetPod_owner (c : Client) (name : GoString) :
    (c.GetPod name).2.world.owner = c.world.owner := by
  unfold Client.GetPod
  split
  · rfl
  · split <;> rfl

theorem CreatePod_owner (c : Client) (pod : Pod) :
    (c.CreatePod pod).2.world.owner = c.world.owner := by
  unfold Client.CreatePod
  split
  · rfl
  · split <;> rfl

theorem GetClaim_owner (c : Client) (kind : ClaimKind) (name : GoString) :
    (c.GetClaim kind name).2.world.owner = c.world.owner := by
  unfold Client.GetClaim
  split
  · rfl
  · split <;> rfl

theorem CreateClaim_owner (c : Client) (kind : ClaimKind) (claim : Claim) :
    (c.CreateClaim kind claim).2.world.owner = c.world.owner := by
  unfold Client.CreateClaim
  split
  · rfl
  · split
    · rfl
    · exact setClaims_owner _ _ _

theorem ListClaims_owner (c : Client) (kind : ClaimKind) (name : GoString) :
    (c.ListClaims kind name).2.world.owner = c.world.owner := by
  unfold Client.ListClaims
  split <;> rfl

theorem DeleteClaim_owner (c : Client) (kind : ClaimKind) (name : GoString) :
    (c.DeleteClaim kind name).2.world.owner = c.world.owner := by
  unfold Client.DeleteClaim
  split
  · rfl
  · split
    · exact setClaims_owner _ _ _
    · rfl

/-- A status update stores the status it is given, or nothing. -/
theorem StatusUpdate_owner (c : Client) (als : AlcorSet) :
    (c.StatusUpdate als).2.world.owner = c.world.owner ∨
      ∃ stored, c.world.owner = some stored ∧
        (c.StatusUpdate als).2.world.owner = some { stored with Status := als.Status } := by
  unfold Client.StatusUpdate
  split
  · exact Or.inl rfl
  · split
    · exact Or.inl rfl
    · rename_i stored hs
      exact Or.inr ⟨stored, hs, rfl⟩

theorem StatusUpdate_fins (c : Client) (als : AlcorSet) :
    (c.StatusUpdate als).2.world.fins = c.world.fins := by
  unfold World.fins
  rcases StatusUpdate_owner c als with h | ⟨stored, h1, h2⟩
  · rw [h]
  · rw [h2, h1]; rfl

theorem StatusUpdate_claimedIPs (c : Client) (als : AlcorSet)
    (h : (als.Status.ClaimedIPs.getD []).Nodup) (hw : c.world.claimedIPs.Nodup) :
    (c.StatusUpdate als).2.world.claimedIPs.Nodup := by
  rcases StatusUpdate_owner c als with h1 | ⟨stored, _, h2⟩
  · unfold World.claimedIPs at hw ⊢
    rw [h1]; exact hw
  · unfold World.claimedIPs
    rw [h2]; exact h

theorem GetAlcorSet_calls (c : Client) :
    c.GetAlcorSet.2.calls = c.calls ++ [Op.GetAlcorSet] := by
  unfold Client.GetAlcorSet
  split
  · rfl
  · split <;> rfl

theorem ListPods_calls (c : Client) (name : GoString) :
    (c.ListPods name).2.calls = c.calls ++ [Op.ListPods] := by
  unfold Client.ListPods
  split <;> rfl

theorem GetPod_calls (c : Client) (name : GoString) :
    (c.GetPod name).2.calls = c.calls ++ [Op.GetPod name] := by
  unfold Client.GetPod
  split
  · rfl
  · split <;> rfl

theorem CreatePod_calls (c : Client) (pod : Pod) :
    (c.CreatePod pod).2.calls = c.calls ++ [Op.CreatePod pod] := by
  unfold Client.CreatePod
  split
  · rfl
  · split <;> rfl

theorem DeletePod_calls (c : Client) (name : GoString) :
    (c.DeletePod name).2.calls = c.calls ++ [Op.DeletePod name] :=
  (DeletePod_frame c name).1

theorem Update_calls (c : Client) (als : AlcorSet) :
    (c.Update als).2.calls = c.calls ++ [Op.Update als] := by
  unfold Client.Update
  split
  · rfl
  · split <;> rfl

theorem StatusUpdate_calls (c : Client) (als : AlcorSet) :
    (c.StatusUpdate als).2.calls = c.calls ++ [Op.StatusUpdate als] := by
  unfold Client.StatusUpdate
  split
  · rfl
  · split <;> rfl

theorem GetClaim_calls (c : Client) (kind : ClaimKind) (name : GoString) :
    (c.GetClaim kind name).2.calls = c.calls ++ [Op.GetClaim kind name] := by
  unfold Client.GetClaim
  split
  · rfl
  · split <;> rfl

theorem CreateClaim_calls (c : Client) (kind : ClaimKind) (claim : Claim) :
    (c.CreateClaim kind claim).2.calls = c.calls ++ [Op.CreateClaim kind claim] := by
  unfold Client.CreateClaim
  split
  · rfl
  · split <;> rfl

theorem ListClaims_calls (c : Client) (kind : ClaimKind) (name : GoString) :
    (c.ListClaims kind name).2.calls = c.calls ++ [Op.ListClaims kind] := by
  unfold Client.ListClaims
  split <;> rfl

theorem DeleteClaim_calls (c : Client) (kind : ClaimKind) (name : GoString) :
    (c.DeleteClaim kind name).2.calls = c.calls ++ [Op.DeleteClaim kind name] := by
  unfold Client.DeleteClaim
  split
  · rfl
  · split <;> rfl

theorem contains_iff (list : List GoString) (s : GoString) :
    contains list s = true ↔ s ∈ list := by
  induction list with
  | nil => simp [contains]
  | cons v rest ih =>
    unfold contains
    by_cases hv : v = s
    · simp [hv]
    · rw [if_neg hv, ih]
      constructor
      · intro h; exact List.mem_cons_of_mem _ h
      · intro h
        rcases List.mem_cons.mp h with h | h
        · exact absurd h.symm hv
        · exact h

theorem contains_eq_false_iff (list : List GoString) (s : GoString) :
    contains list s = false ↔ s ∉ list := by
  rw [← contains_iff]
  cases contains list s <;> simp


/-! ## Theorems: finalizers and claimed IPs along the handlers -/

theorem Keeps.refl (c : Client) (als : AlcorSet) : Keeps c als c als :=
  ⟨rfl, fun h hw => ⟨h, hw⟩, List.prefix_refl _⟩

theorem Keeps.trans {c c1 c2 : Client} {als als1 als2 : AlcorSet}
    (h1 : Keeps c als c1 als1) (h2 : Keeps c1 als1 c2 als2) : Keeps c als c2 als2 :=
  ⟨h2.1.trans h1.1, fun h hw => h2.2.1 (h1.2.1 h hw).1 (h1.2.1 h hw).2,
    List.IsPrefix.trans h1.2.2 h2.2.2⟩

theorem Keeps.of_owner {c c1 : Client} (als : AlcorSet)
    (h : c1.world.owner = c.world.owner) (hp : c.calls <+: c1.calls) : Keeps c als c1 als := by
  refine ⟨?_, fun hn hw => ⟨hn, ?_⟩, hp⟩
  · unfold World.fins; rw [h]
  · unfold World.claimedIPs at hw ⊢; rw [h]; exact hw

theorem Keeps.statusUpdate (c : Client) (als als1 : AlcorSet)
    (h : als.ips.Nodup → als1.ips.Nodup) : Keeps c als (c.StatusUpdate als1).2 als1 :=
  ⟨StatusUpdate_fins c als1, fun hn hw => ⟨h hn, StatusUpdate_claimedIPs c als1 (h hn) hw⟩,
    StatusUpdate_calls c als1 ▸ List.prefix_append _ _⟩

theorem initStatus_keeps (c : Client) (als : AlcorSet) :
    Keeps c als (initStatus c als).2.2 (initStatus c als).2.1 := by
  unfold initStatus
  split
  · have hk := Keeps.statusUpdate c als
      { als with Status := { als.Status with ClaimedIPs := some [] } }
      (fun _ => by simp [AlcorSet.ips])
    simp only []
    split <;> rename_i h <;> rw [h] at hk <;> exact hk
  · exact Keeps.refl c als

theorem getIPClaimRef_owner (c : Client) (als : AlcorSet) (podName : GoString) :
    (getIPClaimRef c als podName).2.world.owner = c.world.owner ∧
      c.calls <+: (getIPClaimRef c als podName).2.calls := by
  unfold getIPClaimRef
  have h1 := GetClaim_owner c ClaimKind.ip podName
  have p1 := GetClaim_calls c ClaimKind.ip podName
  cases hg : c.GetClaim ClaimKind.ip podName with
  | mk res c1 =>
    obtain ⟨ref, err⟩ := res
    rw [hg] at h1 p1
    simp only [] at h1 p1 ⊢
    have q1 : c.calls <+: c1.calls := p1 ▸ List.prefix_append _ _
    split
    · have h2 := CreateClaim_owner c1 ClaimKind.ip (newClaimForCR als podName)
      have p2 := CreateClaim_calls c1 ClaimKind.ip (newClaimForCR als podName)
      split <;> rename_i h <;> rw [h] at h2 p2 <;>
        exact ⟨h2.trans h1, List.IsPrefix.trans q1 (p2 ▸ List.prefix_append _ _)⟩
    · split <;> exact ⟨h1, q1⟩

theorem getVPCIPClaimRef_owner (c : Client) (als : AlcorSet) (podName : GoString) :
    (getVPCIPClaimRef c als podName).2.world.owner = c.world.owner ∧
      c.calls <+: (getVPCIPClaimRef c als podName).2.calls := by
  unfold getVPCIPClaimRef
  have h1 := GetClaim_owner c ClaimKind.vpc podName
  have p1 := GetClaim_calls c ClaimKind.vpc podName
  cases hg : c.GetClaim ClaimKind.vpc podName with
  | mk res c1 =>
    obtain ⟨ref, err⟩ := res
    rw [hg] at h1 p1
    simp only [] at h1 p1 ⊢
    have q1 : c.calls <+: c1.calls := p1 ▸ List.prefix_append _ _
    split
    · have h2 := CreateClaim_owner c1 ClaimKind.vpc (newClaimForCR als podName)
      have p2 := CreateClaim_calls c1 ClaimKind.vpc (newClaimForCR als podName)
      split <;> rename_i h <;> rw [h] at h2 p2 <;>
        exact ⟨h2.trans h1, List.IsPrefix.trans q1 (p2 ▸ List.prefix_append _ _)⟩
    · split <;> exact ⟨h1, q1⟩

theorem recordClaimedIP_keeps (c : Client) (als : AlcorSet) (ip : GoString) :
    Keeps c als (recordClaimedIP c als ip).2.2 (recordClaimedIP c als ip).2.1 := by
  unfold recordClaimedIP
  split
  · rename_i hcond
    have hnot : ip ∉ als.ips := (contains_eq_false_iff _ _).mp hcond.2
    exact Keeps.statusUpdate c als _ (fun hn => by
      simp only [AlcorSet.ips, Option.getD_some]
      exact List.Nodup.append hn (List.nodup_singleton ip)
        (by simpa [List.disjoint_singleton] using hnot))
  · exact Keeps.refl c als


theorem createPodSlot_keeps (c : Client) (als : AlcorSet) (podMap : List (GoString × Pod)) :
    Keeps c als (createPodSlot c als podMap).client (createPodSlot c als podMap).als := by
  unfold createPodSlot
  cases hscan : scanPodName als podMap (loopCount als.Spec.Replicas) 0 ([], []) with
  | mk podName podHostname =>
    simp only []
    have hclaim : (if als.Spec.OnVPC = true then getVPCIPClaimRef c als podName
        else getIPClaimRef c als podName).2.world.owner = c.world.owner ∧
        c.calls <+: (if als.Spec.OnVPC = true then getVPCIPClaimRef c als podName
          else getIPClaimRef c als podName).2.calls := by
      split
      · exact getVPCIPClaimRef_owner c als podName
      · exact getIPClaimRef_owner c als podName
    cases hres : (if als.Spec.OnVPC = true then getVPCIPClaimRef c als podName
        else getIPClaimRef c als podName) with
    | mk res c1 =>
      obtain ⟨ref, err⟩ := res
      rw [hres] at hclaim
      simp only [] at hclaim
      have k1 : Keeps c als c1 als := Keeps.of_owner als hclaim.1 hclaim.2
      cases err with
      | some e => cases ref <;> exact k1
      | none =>
        cases ref with
        | none => exact k1
        | some claimRef =>
          simp only []
          have k2 := recordClaimedIP_keeps c1 als claimRef.IP
          cases hrec : recordClaimedIP c1 als claimRef.IP with
          | mk rerr rest =>
            obtain ⟨als1, c2⟩ := rest
            rw [hrec] at k2
            simp only [] at k2
            have k12 := k1.trans k2
            cases rerr with
            | some e => exact k12
            | none =>
              simp only []
              have k3 : Keeps c2 als1 (c2.GetPod podName).2 als1 :=
                Keeps.of_owner als1 (GetPod_owner c2 podName)
                  (GetPod_calls c2 podName ▸ List.prefix_append _ _)
              cases hget : c2.GetPod podName with
              | mk gres c3 =>
                obtain ⟨found, gerr⟩ := gres
                rw [hget] at k3
                simp only [] at k3 ⊢
                have k123 := k12.trans k3
                split
                · have k4 : Keeps c3 als1
                      (c3.CreatePod (newPodForCR als1 podName podHostname claimRef.IP)).2 als1 :=
                    Keeps.of_owner als1 (CreatePod_owner c3 _)
                      (CreatePod_calls c3 _ ▸ List.prefix_append _ _)
                  cases hcr : c3.CreatePod (newPodForCR als1 podName podHostname claimRef.IP) with
                  | mk cerr c4 =>
                    rw [hcr] at k4
                    simp only [] at k4 ⊢
                    have k1234 := k123.trans k4
                    cases cerr with
                    | some e => exact k1234
                    | none =>
                      simp only []
                      have k5 := Keeps.statusUpdate c4 als1
                        { als1 with Status := { als1.Status with Count := als1.Status.Count + 1 } }
                        (fun hn => hn)
                      cases hsu : c4.StatusUpdate
                        { als1 with Status := { als1.Status with Count := als1.Status.Count + 1 } } with
                      | mk serr c5 =>
                        rw [hsu] at k5
                        simp only [] at k5 ⊢
                        cases serr <;> exact k1234.trans k5
                · exact k123

theorem createPodLoop_keeps (rounds : Nat) (c : Client) (als : AlcorSet)
    (podMap : List (GoString × Pod)) :
    Keeps c als (createPodLoop rounds c als podMap).2.2 (createPodLoop rounds c als podMap).2.1 := by
  induction rounds generalizing c als podMap with
  | zero => exact Keeps.refl c als
  | succ n ih =>
    unfold createPodLoop
    have k := createPodSlot_keeps c als podMap
    cases hslot : createPodSlot c als podMap with
    | Return requeue err als1 c1 =>
      rw [hslot] at k
      exact k
    | Continue podMap1 als1 c1 =>
      rw [hslot] at k
      exact Keeps.trans k (ih c1 als1 podMap1)

theorem createPod_keeps (c : Client) (als : AlcorSet) (pods : List Pod) :
    Keeps c als (createPod c als pods).2.2 (createPod c als pods).2.1 :=
  createPodLoop_keeps _ c als _

theorem deleteClaimsLoop_owner (kind : ClaimKind) (claims : List Claim) (acc : List GoString)
    (c : Client) : (deleteClaimsLoop kind claims acc c).2.world.owner = c.world.owner ∧
      c.calls <+: (deleteClaimsLoop kind claims acc c).2.calls := by
  induction claims generalizing acc c with
  | nil => exact ⟨rfl, List.prefix_refl _⟩
  | cons cl rest ih =>
    unfold deleteClaimsLoop
    have h := DeleteClaim_owner c kind cl.Name
    have p := DeleteClaim_calls c kind cl.Name
    cases hd : c.DeleteClaim kind cl.Name with
    | mk err c1 =>
      rw [hd] at h p
      simp only [] at h p
      have q : c.calls <+: c1.calls := p ▸ List.prefix_append _ _
      cases err with
      | some e => exact ⟨h, q⟩
      | none => exact ⟨(ih _ c1).1.trans h, List.IsPrefix.trans q (ih _ c1).2⟩

theorem filter_ips_nodup (als : AlcorSet) (p : GoString → Bool) (h : als.ips.Nodup) :
    ({ als with Status := { als.Status with ClaimedIPs := some (als.ips.filter p) } } :
      AlcorSet).ips.Nodup := by
  simp only [AlcorSet.ips, Option.getD_some]
  exact List.Nodup.filter p h

theorem deleteIPClaims_keeps (c : Client) (als : AlcorSet) :
    Keeps c als (deleteIPClaims c als).2.2 (deleteIPClaims c als).2.1 := by
  unfold deleteIPClaims
  have h1 := ListClaims_owner c ClaimKind.ip als.Name
  have p1 := ListClaims_calls c ClaimKind.ip als.Name
  cases hl : c.ListClaims ClaimKind.ip als.Name with
  | mk res c1 =>
    rw [hl] at h1 p1
    simp only [] at h1 p1
    have k1 : Keeps c als c1 als := Keeps.of_owner als h1 (p1 ▸ List.prefix_append _ _)
    cases res with
    | error err =>
      simp only []
      split <;> exact k1
    | ok ipclaims =>
      simp only []
      have h2 := deleteClaimsLoop_owner ClaimKind.ip ipclaims [] c1
      cases hd : deleteClaimsLoop ClaimKind.ip ipclaims [] c1 with
      | mk dres c2 =>
        obtain ⟨derr, claimedIPs⟩ := dres
        rw [hd] at h2
        simp only [] at h2
        have k2 : Keeps c als c2 als := k1.trans (Keeps.of_owner als h2.1 h2.2)
        cases derr with
        | some e => exact k2
        | none =>
          simp only []
          exact k2.trans (Keeps.statusUpdate c2 als _
            (fun hn => filter_ips_nodup als (fun ip => contains claimedIPs ip) hn))

theorem deleteVPCIPClaims_keeps (c : Client) (als : AlcorSet) :
    Keeps c als (deleteVPCIPClaims c als).2.2 (deleteVPCIPClaims c als).2.1 := by
  unfold deleteVPCIPClaims
  have h1 := ListClaims_owner c ClaimKind.vpc als.Name
  have p1 := ListClaims_calls c ClaimKind.vpc als.Name
  cases hl : c.ListClaims ClaimKind.vpc als.Name with
  | mk res c1 =>
    rw [hl] at h1 p1
    simp only [] at h1 p1
    have k1 : Keeps c als c1 als := Keeps.of_owner als h1 (p1 ▸ List.prefix_append _ _)
    cases res with
    | error err =>
      simp only []
      split <;> exact k1
    | ok vpcipclaims =>
      simp only []
      have h2 := deleteClaimsLoop_owner ClaimKind.vpc vpcipclaims [] c1
      cases hd : deleteClaimsLoop ClaimKind.vpc vpcipclaims [] c1 with
      | mk dres c2 =>
        obtain ⟨derr, claimedIPs⟩ := dres
        rw [hd] at h2
        simp only [] at h2
        have k2 : Keeps c als c2 als := k1.trans (Keeps.of_owner als h2.1 h2.2)
        cases derr with
        | some e => exact k2
        | none =>
          simp only []
          split
          · exact k2.trans (Keeps.statusUpdate c2 als _
              (fun hn => filter_ips_nodup als (fun ip => contains claimedIPs ip) hn))
          · exact k2


/-- C5. The claimed-IP set has no duplicates: when `Status.ClaimedIPs` is
free of duplicates in the owner object and in the store, it is so again, in
both, after `initStatus`, after the record step of `createPod`, after the
whole of `createPod` (VPC or plain mode, any number of rounds, whatever calls
fail), after `deleteIPClaims` and after `deleteVPCIPClaims`; and the record
step for an IP that is already present changes nothing and issues no call. -/
theorem claimedIPs_nodup_preserved (c : Client) (als : AlcorSet) (pods : List Pod)
    (ip : GoString) (h : als.ips.Nodup) (hw : c.world.claimedIPs.Nodup) :
    ((initStatus c als).2.1.ips.Nodup ∧ (initStatus c als).2.2.world.claimedIPs.Nodup) ∧
      ((recordClaimedIP c als ip).2.1.ips.Nodup ∧
        (recordClaimedIP c als ip).2.2.world.claimedIPs.Nodup) ∧
      ((createPod c als pods).2.1.ips.Nodup ∧
        (createPod c als pods).2.2.world.claimedIPs.Nodup) ∧
      ((deleteIPClaims c als).2.1.ips.Nodup ∧
        (deleteIPClaims c als).2.2.world.claimedIPs.Nodup) ∧
      ((deleteVPCIPClaims c als).2.1.ips.Nodup ∧
        (deleteVPCIPClaims c als).2.2.world.claimedIPs.Nodup) ∧
      (contains als.ips ip = true → recordClaimedIP c als ip = (none, als, c)) := by
  refine ⟨(initStatus_keeps c als).2.1 h hw, (recordClaimedIP_keeps c als ip).2.1 h hw,
    (createPod_keeps c als pods).2.1 h hw, (deleteIPClaims_keeps c als).2.1 h hw,
    (deleteVPCIPClaims_keeps c als).2.1 h hw, ?_⟩
  intro hc
  unfold recordClaimedIP
  rw [if_neg]
  intro hcond
  have : contains als.ips ip = false := hcond.2
  rw [hc] at this
  exact absurd this (by decide)

/-- Witness for C5: the converged store `exFixedWorld`, its owner, and the
IP `10.0.0.5`, which is already claimed. -/
theorem claimedIPs_nodup_preserved_witness :
    (exOwner 2 false true false [FinalizerIPClaim]
        (some ["10.0.0.5".toList, "10.0.0.6".toList])).ips.Nodup ∧
      (Client.start exFixedWorld noFaults).world.claimedIPs.Nodup ∧
      (recordClaimedIP (Client.start exFixedWorld noFaults)
          (exOwner 2 false true false [FinalizerIPClaim]
            (some ["10.0.0.5".toList, "10.0.0.6".toList])) "10.0.0.5".toList).2.1.ips.Nodup ∧
      (createPod (Client.start exFixedWorld noFaults)
          (exOwner 2 false true false [FinalizerIPClaim]
            (some ["10.0.0.5".toList, "10.0.0.6".toList])) []).2.2.world.claimedIPs.Nodup :=
  ⟨by decide, by decide,
    (claimedIPs_nodup_preserved (Client.start exFixedWorld noFaults)
      (exOwner 2 false true false [FinalizerIPClaim]
        (some ["10.0.0.5".toList, "10.0.0.6".toList])) [] "10.0.0.5".toList
      (by decide) (by decide)).2.1.1,
    (claimedIPs_nodup_preserved (Client.start exFixedWorld noFaults)
      (exOwner 2 false true false [FinalizerIPClaim]
        (some ["10.0.0.5".toList, "10.0.0.6".toList])) [] "10.0.0.5".toList
      (by decide) (by decide)).2.2.1.2⟩


/-! ## Theorems: the finalizer step -/

theorem bulkLoop_calls (border : Int) (pods : List Pod) (c : Client) :
    c.calls <+: (bulkLoop border pods c).2.calls := by
  induction pods generalizing c with
  | nil => exact List.prefix_refl _
  | cons p rest ih =>
    unfold bulkLoop
    split
    · exact List.prefix_refl _
    · split
      · have p1 := DeletePod_calls c p.Name
        cases hd : c.DeletePod p.Name with
        | mk err c1 =>
          rw [hd] at p1
          simp only [] at p1
          have q : c.calls <+: c1.calls := p1 ▸ List.prefix_append _ _
          cases err with
          | some e => exact q
          | none => exact List.IsPrefix.trans q (ih c1)
      · exact ih c

theorem tearDownPods_keeps (c : Client) (als : AlcorSet) (pods : List Pod) (deleteAll : Bool) :
    Keeps c als (tearDownPods c als pods deleteAll).2 als := by
  refine Keeps.of_owner als (tearDownPods_frame c als pods deleteAll).2.1 ?_
  unfold tearDownPods
  split
  · split
    · exact List.prefix_refl _
    · split
      · exact List.prefix_refl _
      · exact DeletePod_calls c _ ▸ List.prefix_append _ _
  · exact bulkLoop_calls _ pods c

theorem getPods_keeps (c : Client) (als : AlcorSet) : Keeps c als (getPods c als).2 als := by
  rw [getPods_client]
  exact Keeps.of_owner als rfl (List.prefix_append _ _)

/-- The part of `Reconcile` after the finalizer step keeps the stored
finalizer list and begins with `firstScaleCall`. -/
theorem reconcileScale_spec (c : Client) (als : AlcorSet) :
    (reconcileScale c als).2.world.fins = c.world.fins ∧
      (c.calls ++ [firstScaleCall als]) <+: (reconcileScale c als).2.calls := by
  unfold reconcileScale firstScaleCall
  have k1 := initStatus_keeps c als
  have hfirst : (c.calls ++ [firstScaleCall als]) <+: (initStatus c als).2.2.calls ∨
      ((initStatus c als).1 = none ∧ (initStatus c als).2.1.Status.ClaimedIPs ≠ none ∧
        (initStatus c als).2.2 = c ∧ als.Status.ClaimedIPs ≠ none) := by
    unfold initStatus firstScaleCall
    split
    · left
      simp only []
      have p := StatusUpdate_calls c
        { als with Status := { als.Status with ClaimedIPs := some [] } }
      split <;> rename_i h <;> rw [h] at p <;> simp only [] at p ⊢ <;> rw [p]
    · right
      rename_i hne
      exact ⟨rfl, hne, rfl, hne⟩
  cases hi : initStatus c als with
  | mk ierr rest =>
    obtain ⟨als1, c1⟩ := rest
    rw [hi] at k1 hfirst
    simp only [] at k1 hfirst
    cases ierr with
    | some e =>
      simp only []
      refine ⟨k1.1, ?_⟩
      rcases hfirst with h | h
      · simpa [firstScaleCall] using h
      · exact absurd h.1 (by simp)
    | none =>
      simp only []
      have k2 := getPods_keeps c1 als1
      have hc2 := getPods_client c1 als1
      have tail : ∀ c3 : Client, (getPods c1 als1).2.calls <+: c3.calls →
          (c.calls ++ [if als.Status.ClaimedIPs = none then
            Op.StatusUpdate { als with Status := { als.Status with ClaimedIPs := some [] } }
            else Op.ListPods]) <+: c3.calls := by
        intro c3 h3
        rcases hfirst with h | h
        · exact List.IsPrefix.trans (by simpa [firstScaleCall] using h)
            (List.IsPrefix.trans k2.2.2 h3)
        · rw [hc2, h.2.2.1] at h3
          rw [if_neg h.2.2.2]
          simpa [Client.log] using h3
      cases hp : getPods c1 als1 with
      | mk pres c2 =>
        obtain ⟨pods, perr⟩ := pres
        rw [hp] at k2 tail
        simp only [] at k2 tail
        have k12 := k1.trans k2
        cases perr with
        | some e =>
          simp only []
          split
          · exact ⟨k12.1, tail c2 (List.prefix_refl _)⟩
          · split <;> exact ⟨k12.1, tail c2 (List.prefix_refl _)⟩
        | none =>
          simp only []
          split
          · have k3 := tearDownPods_keeps c2 als1 pods false
            exact ⟨(k12.trans k3).1, tail _ k3.2.2⟩
          · split
            · have k3 := createPod_keeps c2 als1 pods
              cases hcp : createPod c2 als1 pods with
              | mk cres crest =>
                obtain ⟨requeue, cerr⟩ := cres
                obtain ⟨als2, c3⟩ := crest
                rw [hcp] at k3
                simp only [] at k3
                cases cerr with
                | some e => exact ⟨(k12.trans k3).1, tail _ k3.2.2⟩
                | none =>
                  simp only []
                  split <;> exact ⟨(k12.trans k3).1, tail _ k3.2.2⟩
            · exact ⟨k12.1, tail c2 (List.prefix_refl _)⟩


theorem finsToAdd_of_missing (als : AlcorSet)
    (h : contains als.Finalizers (requiredFinalizer als) = false) :
    finsToAdd als = [requiredFinalizer als] := by
  unfold finsToAdd
  unfold requiredFinalizer at h ⊢
  cases hv : als.Spec.OnVPC <;> simp [hv] at h ⊢ <;> exact h

theorem Update_ok (c : Client) (als : AlcorSet) (h : (c.Update als).1 = none) :
    ∃ stored, c.world.owner = some stored ∧
      (c.Update als).2.world.owner =
        some { stored with Finalizers := als.Finalizers, Spec := als.Spec } := by
  unfold Client.Update at h ⊢
  cases hf : c.fault with
  | some e => rw [hf] at h; simp at h
  | none =>
    rw [hf] at h
    cases ho : c.world.owner with
    | none => rw [ho] at h; simp at h
    | some stored => exact ⟨stored, rfl, rfl⟩

theorem Update_fail (c : Client) (als : AlcorSet) (h : (c.Update als).1 ≠ none) :
    (c.Update als).2.world = c.world := by
  unfold Client.Update at h ⊢
  cases hf : c.fault with
  | some e => rfl
  | none =>
    rw [hf] at h
    cases ho : c.world.owner with
    | none => rfl
    | some stored => rw [ho] at h; exact absurd rfl h

/-- C6, counterexample. On the fresh store (live owner `web`, no finalizer,
nil `Status.ClaimedIPs`, two replicas, no pods, no claims) and without faults
one `Reconcile` call adds the plain finalizer and does not stop: the same call
updates the status and creates the claim `web-0`. -/
theorem reconcile_does_not_stop_after_finalizer :
    (exOwner 2 false false false [] none).Deleting = false ∧
      contains (exOwner 2 false false false [] none).Finalizers
        (requiredFinalizer (exOwner 2 false false false [] none)) = false ∧
      (Reconcile (Client.start exFreshWorld noFaults)).2.calls =
        [Op.GetAlcorSet,
          Op.Update (exOwner 2 false false false [FinalizerIPClaim] none),
          Op.StatusUpdate (exOwner 2 false false false [FinalizerIPClaim] (some [])),
          Op.ListPods,
          Op.GetClaim ClaimKind.ip "web-0".toList,
          Op.CreateClaim ClaimKind.ip ⟨"web-0".toList, some ['w', 'e', 'b'], []⟩] ∧
      ¬ (∀ op ∈ (Reconcile (Client.start exFreshWorld noFaults)).2.calls,
          op.isFinalizerStep = true) := by
  refine ⟨rfl, by decide, by decide, by decide⟩

/-- C6, amended. A `Reconcile` call that reads a live owner without the
finalizer its flag `OnVPC` asks for issues, right after the read, an update of
the owner with that finalizer appended. When this update fails the call
returns an error, issues no other call and leaves the store as it was. When
the update succeeds the call does not stop: it goes on with the rest of the
function (`initStatus`, `getPods`, the scaling step) on the updated object;
the store then holds the new finalizer list, and the next call issued is the
status update of `initStatus` (nil `Status.ClaimedIPs`) or the listing of
pods. -/
theorem reconcile_adds_finalizer_then_goes_on (w : World) (faults : Nat → Option GoError)
    (als : AlcorSet)
    (hown : (Client.start w faults).GetAlcorSet.1 = Except.ok als)
    (hlive : als.Deleting = false)
    (hmiss : contains als.Finalizers (requiredFinalizer als) = false) :
    ([Op.GetAlcorSet, Op.Update (withFinalizer als)] <+:
        (Reconcile (Client.start w faults)).2.calls) ∧
      ((((Client.start w faults).log Op.GetAlcorSet).Update (withFinalizer als)).1 ≠ none →
        (Reconcile (Client.start w faults)).1.2 ≠ none ∧
        (Reconcile (Client.start w faults)).2.calls =
          [Op.GetAlcorSet, Op.Update (withFinalizer als)] ∧
        (Reconcile (Client.start w faults)).2.world = w) ∧
      ((((Client.start w faults).log Op.GetAlcorSet).Update (withFinalizer als)).1 = none →
        Reconcile (Client.start w faults) =
          reconcileScale
            (((Client.start w faults).log Op.GetAlcorSet).Update (withFinalizer als)).2
            (withFinalizer als) ∧
        (Reconcile (Client.start w faults)).2.world.fins =
          some (als.Finalizers ++ [requiredFinalizer als]) ∧
        ([Op.GetAlcorSet, Op.Update (withFinalizer als), firstScaleCall (withFinalizer als)] <+:
          (Reconcile (Client.start w faults)).2.calls)) := by
  have hc1 := GetAlcorSet_client (Client.start w faults)
  have key : Reconcile (Client.start w faults) =
      match ((Client.start w faults).log Op.GetAlcorSet).Update (withFinalizer als) with
      | (some err, c1) =>
        ((⟨false⟩, some (GoError.Other ("Failed to add finalizers: " ++ err.Error))), c1)
      | (none, c1) => reconcileScale c1 (withFinalizer als) := by
    unfold Reconcile
    cases hg : (Client.start w faults).GetAlcorSet with
    | mk res c1 =>
      rw [hg] at hown hc1
      simp only [] at hown hc1
      subst hown
      subst hc1
      simp only [hlive, Bool.false_eq_true, if_false]
      unfold reconcileLive addFinalizers
      rw [finsToAdd_of_missing als hmiss]
      simp only [List.length_singleton, ne_eq, one_ne_zero, not_false_eq_true, if_true]
      unfold withFinalizer
      generalize ((Client.start w faults).log Op.GetAlcorSet).Update _ = r
      obtain ⟨e, c2⟩ := r
      cases e <;> rfl
  have hupd := Update_calls ((Client.start w faults).log Op.GetAlcorSet) (withFinalizer als)
  have hok := Update_ok ((Client.start w faults).log Op.GetAlcorSet) (withFinalizer als)
  have hfail := Update_fail ((Client.start w faults).log Op.GetAlcorSet) (withFinalizer als)
  cases hu : ((Client.start w faults).log Op.GetAlcorSet).Update (withFinalizer als) with
  | mk uerr c2 =>
    rw [hu] at key hupd hok hfail
    simp only [] at key hupd hok hfail
    have hcalls2 : c2.calls = [Op.GetAlcorSet, Op.Update (withFinalizer als)] := by
      rw [hupd]; rfl
    cases uerr with
    | some e =>
      simp only [] at key
      rw [key]
      refine ⟨by simp [hcalls2], fun _ => ⟨by simp, hcalls2, ?_⟩, fun h => absurd h (by simp)⟩
      rw [hfail (by simp)]; rfl
    | none =>
      simp only [] at key
      rw [key]
      obtain ⟨s1, s2⟩ := reconcileScale_spec c2 (withFinalizer als)
      rw [hcalls2] at s2
      refine ⟨List.IsPrefix.trans (List.prefix_append _ _) s2,
        fun h => absurd rfl h, fun _ => ⟨rfl, ?_, by simpa using s2⟩⟩
      rw [s1]
      obtain ⟨stored, _, h⟩ := hok rfl
      unfold World.fins
      rw [h]
      rfl


/-- Witness for C6 (amended): the fresh store `exFreshWorld`. -/
theorem reconcile_adds_finalizer_then_goes_on_witness :
    (Client.start exFreshWorld noFaults).GetAlcorSet.1 =
        Except.ok (exOwner 2 false false false [] none) ∧
      (exOwner 2 false false false [] none).Deleting = false ∧
      contains (exOwner 2 false false false [] none).Finalizers
        (requiredFinalizer (exOwner 2 false false false [] none)) = false ∧
      ([Op.GetAlcorSet, Op.Update (withFinalizer (exOwner 2 false false false [] none)),
          firstScaleCall (withFinalizer (exOwner 2 false false false [] none))] <+:
        (Reconcile (Client.start exFreshWorld noFaults)).2.calls) :=
  ⟨rfl, rfl, by decide,
    ((reconcile_adds_finalizer_then_goes_on exFreshWorld noFaults
      (exOwner 2 false false false [] none) rfl rfl (by decide)).2.2 rfl).2.2⟩


/-! ## Theorems: the finalizer list over a sequence of calls -/

/-- The branch of `Reconcile` for a live owner leaves the stored finalizer
list as it is, or stores the list of the object with the missing required
finalizer appended. -/
theorem reconcileLive_fins (c : Client) (als : AlcorSet) :
    (reconcileLive c als).2.world.fins = c.world.fins ∨
      (contains als.Finalizers (requiredFinalizer als) = false ∧
        (reconcileLive c als).2.world.fins =
          some (als.Finalizers ++ [requiredFinalizer als])) := by
  unfold reconcileLive
  cases hc : contains als.Finalizers (requiredFinalizer als) with
  | true =>
    have h0 : finsToAdd als = [] := finsToAdd_nil_of_contains als hc
    rw [h0]
    simp only [List.length_nil, ne_eq, not_true_eq_false, if_false]
    exact Or.inl (reconcileScale_spec c als).1
  | false =>
    rw [finsToAdd_of_missing als hc]
    simp only [List.length_singleton, ne_eq, one_ne_zero, not_false_eq_true, if_true]
    unfold addFinalizers
    simp only []
    have hok := Update_ok c (withFinalizer als)
    have hfail := Update_fail c (withFinalizer als)
    unfold withFinalizer at hok hfail
    generalize c.Update _ = r at hok hfail ⊢
    obtain ⟨e, c2⟩ := r
    cases e with
    | some err =>
      left
      simp only [] at hfail ⊢
      rw [hfail (by simp)]
    | none =>
      right
      simp only []
      refine ⟨trivial, ?_⟩
      rw [(reconcileScale_spec c2 _).1]
      obtain ⟨stored, _, h⟩ := hok rfl
      unfold World.fins
      rw [h]
      rfl

/-- A `Reconcile` call on a live owner leaves the stored finalizer list as it
is, or appends the required finalizer, which the list did not contain. -/
theorem Reconcile_live_fins (w : World) (faults : Nat → Option GoError) (als : AlcorSet)
    (hown : w.owner = some als) (hlive : als.Deleting = false) :
    (Reconcile (Client.start w faults)).2.world.fins = some als.Finalizers ∨
      (contains als.Finalizers (requiredFinalizer als) = false ∧
        (Reconcile (Client.start w faults)).2.world.fins =
          some (als.Finalizers ++ [requiredFinalizer als])) := by
  have hstart : ((Client.start w faults).log Op.GetAlcorSet).world.fins = some als.Finalizers := by
    unfold World.fins
    simp [Client.log, Client.start, hown]
  unfold Reconcile Client.GetAlcorSet
  cases hf : (Client.start w faults).fault with
  | some e =>
    left
    simp only []
    split <;> exact hstart
  | none =>
    have hw : (Client.start w faults).world.owner = some als := hown
    simp only [hw]
    rw [if_neg (by simp [hlive])]
    rcases reconcileLive_fins ((Client.start w faults).log Op.GetAlcorSet) als with h | ⟨h1, h2⟩
    · left
      rw [h]
      exact hstart
    · right
      exact ⟨h1, h2⟩

/-- One round on a live owner keeps the finalizer list or appends the
required finalizer, which the list did not contain. -/
theorem finalizersAfter_live (fins : List GoString) (r : Round) (o : AlcorSet)
    (ho : r.world.owner = some o) (hlive : o.Deleting = false) :
    finalizersAfter fins r = fins ∨
      (contains fins (requiredFinalizer o) = false ∧
        finalizersAfter fins r = fins ++ [requiredFinalizer o]) := by
  unfold finalizersAfter
  rw [ho]
  simp only []
  rcases Reconcile_live_fins { r.world with owner := some { o with Finalizers := fins } }
    r.faults { o with Finalizers := fins } rfl hlive with h | ⟨h1, h2⟩
  · left
    rw [h]
    rfl
  · right
    refine ⟨h1, ?_⟩
    rw [h2]
    rfl


theorem requiredFinalizer_mem (o : AlcorSet) : requiredFinalizer o ∈ allFinalizers := by
  unfold requiredFinalizer allFinalizers
  cases o.Spec.OnVPC <;> simp

theorem foldl_finalizers_nodup (rounds : List Round) (fins : List GoString)
    (hlive : ∀ r ∈ rounds, ∀ o, r.world.owner = some o → o.Deleting = false)
    (h : fins.Nodup ∧ ∀ f ∈ fins, f ∈ allFinalizers) :
    (rounds.foldl finalizersAfter fins).Nodup ∧
      ∀ f ∈ rounds.foldl finalizersAfter fins, f ∈ allFinalizers := by
  induction rounds generalizing fins with
  | nil => exact h
  | cons r rest ih =>
    simp only [List.foldl_cons]
    apply ih _ (fun r1 h1 => hlive r1 (List.mem_cons_of_mem _ h1))
    cases ho : r.world.owner with
    | none =>
      have : finalizersAfter fins r = fins := by
        unfold finalizersAfter; rw [ho]
      rw [this]; exact h
    | some o =>
      rcases finalizersAfter_live fins r o ho (hlive r (by simp) o ho) with e | ⟨hc, e⟩
      · rw [e]; exact h
      · rw [e]
        have hnot : requiredFinalizer o ∉ fins := (contains_eq_false_iff _ _).mp hc
        refine ⟨List.Nodup.append h.1 (List.nodup_singleton _)
          (by simpa [List.disjoint_singleton] using hnot), ?_⟩
        intro f hf
        rcases List.mem_append.mp hf with h1 | h1
        · exact h.2 f h1
        · simp only [List.mem_singleton] at h1
          rw [h1]; exact requiredFinalizer_mem o

theorem foldl_finalizers_fixed (rounds : List Round) (fins : List GoString) (b : Bool)
    (hlive : ∀ r ∈ rounds, ∀ o, r.world.owner = some o → o.Deleting = false)
    (hflag : ∀ r ∈ rounds, ∀ o, r.world.owner = some o → o.Spec.OnVPC = b)
    (h : fins = [] ∨ fins = [if b then FinalizerVPCIPClaim else FinalizerIPClaim]) :
    rounds.foldl finalizersAfter fins = [] ∨
      rounds.foldl finalizersAfter fins = [if b then FinalizerVPCIPClaim else FinalizerIPClaim] := by
  induction rounds generalizing fins with
  | nil => exact h
  | cons r rest ih =>
    simp only [List.foldl_cons]
    apply ih _ (fun r1 h1 => hlive r1 (List.mem_cons_of_mem _ h1))
      (fun r1 h1 => hflag r1 (List.mem_cons_of_mem _ h1))
    cases ho : r.world.owner with
    | none =>
      have : finalizersAfter fins r = fins := by
        unfold finalizersAfter; rw [ho]
      rw [this]; exact h
    | some o =>
      have hreq : requiredFinalizer o = if b then FinalizerVPCIPClaim else FinalizerIPClaim := by
        unfold requiredFinalizer
        rw [hflag r (by simp) o ho]
      rcases finalizersAfter_live fins r o ho (hlive r (by simp) o ho) with e | ⟨hc, e⟩
      · rw [e]; exact h
      · rw [e]
        rcases h with h | h
        · right; rw [h, hreq]; rfl
        · exfalso
          have hnot : requiredFinalizer o ∉ fins := (contains_eq_false_iff _ _).mp hc
          rw [h, hreq] at hnot
          exact hnot (by simp)

/-- C9, counterexample. Two `Reconcile` calls on the live owner `web`, the
first with `OnVPC = false` on the fresh store, the second with `OnVPC = true`
on the store the first call left: the finalizer list then holds both
`FinalizerIPClaim` and `FinalizerVPCIPClaim`. -/
theorem finalizers_both_after_flag_change :
    finalizersAfterAll
        [⟨exFreshWorld, noFaults⟩,
          ⟨⟨some (exOwner 2 true false false [] (some [])), [],
            [⟨"web-0".toList, some ['w', 'e', 'b'], []⟩], []⟩, noFaults⟩] =
      [FinalizerIPClaim, FinalizerVPCIPClaim] ∧
    (Reconcile (Client.start exFreshWorld noFaults)).2.world =
      ⟨some (exOwner 2 false false false [FinalizerIPClaim] (some [])), [],
        [⟨"web-0".toList, some ['w', 'e', 'b'], []⟩], []⟩ := by
  constructor <;> decide

/-- C9, amended. Starting from an empty finalizer list, after any sequence of
`Reconcile` calls on the live owner (any stores, any faults, the flag `OnVPC`
free to differ between calls) the finalizer list never holds the same
finalizer twice and holds nothing but `FinalizerIPClaim` and
`FinalizerVPCIPClaim`; and when the flag `OnVPC` is the same in all calls the
list is empty or holds exactly the one finalizer that flag asks for. -/
theorem finalizers_over_calls (rounds : List Round)
    (hlive : ∀ r ∈ rounds, ∀ o, r.world.owner = some o → o.Deleting = false) :
    (finalizersAfterAll rounds).Nodup ∧
      (∀ f ∈ finalizersAfterAll rounds, f ∈ allFinalizers) ∧
      (∀ b : Bool, (∀ r ∈ rounds, ∀ o, r.world.owner = some o → o.Spec.OnVPC = b) →
        finalizersAfterAll rounds = [] ∨
          finalizersAfterAll rounds = [if b then FinalizerVPCIPClaim else FinalizerIPClaim]) := by
  have h1 := foldl_finalizers_nodup rounds [] hlive ⟨List.nodup_nil, by simp⟩
  exact ⟨h1.1, h1.2, fun b hb => foldl_finalizers_fixed rounds [] b hlive hb (Or.inl rfl)⟩

/-- Witness for C9 (amended): two calls on the live owner `web` with
`OnVPC = false`, the second on the store the first one left. -/
theorem finalizers_over_calls_witness :
    (∀ r ∈ [(⟨exFreshWorld, noFaults⟩ : Round),
          ⟨⟨some (exOwner 2 false false false [] (some [])), [],
            [⟨"web-0".toList, some ['w', 'e', 'b'], []⟩], []⟩, noFaults⟩],
        ∀ o, r.world.owner = some o → o.Deleting = false) ∧
      (finalizersAfterAll
        [⟨exFreshWorld, noFaults⟩,
          ⟨⟨some (exOwner 2 false false false [] (some [])), [],
            [⟨"web-0".toList, some ['w', 'e', 'b'], []⟩], []⟩, noFaults⟩]).Nodup ∧
      finalizersAfterAll
        [⟨exFreshWorld, noFaults⟩,
          ⟨⟨some (exOwner 2 false false false [] (some [])), [],
            [⟨"web-0".toList, some ['w', 'e', 'b'], []⟩], []⟩, noFaults⟩] = [FinalizerIPClaim] :=
  ⟨by
      intro r hr o ho
      simp only [List.mem_cons, List.mem_singleton, List.not_mem_nil, or_false] at hr
      rcases hr with h | h <;> subst h <;> simp [exFreshWorld] at ho <;> subst ho <;> rfl,
    (finalizers_over_calls _ (by
      intro r hr o ho
      simp only [List.mem_cons, List.mem_singleton, List.not_mem_nil, or_false] at hr
      rcases hr with h | h <;> subst h <;> simp [exFreshWorld] at ho <;> subst ho <;> rfl)).1,
    by decide⟩


/-! ## Theorems: deletion step 3 -/

theorem deleteClaimsLoop_calls (kind : ClaimKind) (claims : List Claim) (acc : List GoString)
    (c : Client) (h : (deleteClaimsLoop kind claims acc c).1.1 = none) :
    (deleteClaimsLoop kind claims acc c).2.calls =
      c.calls ++ claims.map (fun cl => Op.DeleteClaim kind cl.Name) := by
  induction claims generalizing acc c with
  | nil => simp [deleteClaimsLoop]
  | cons cl rest ih =>
    unfold deleteClaimsLoop at h ⊢
    have p := DeleteClaim_calls c kind cl.Name
    cases hd : c.DeleteClaim kind cl.Name with
    | mk err c1 =>
      rw [hd] at h p
      cases err with
      | some e => simp at h
      | none =>
        simp only [] at h p ⊢
        rw [ih _ _ h, p]
        simp

/-- A run of `deleteIPClaims` without error on the listing `listed`: the
calls are the listing, one delete for every listed claim, and the status
update; the finalizer list of the object stays. -/
theorem deleteIPClaims_ok (c : Client) (als : AlcorSet) (listed : List Claim)
    (hl : (c.ListClaims ClaimKind.ip als.Name).1 = Except.ok listed)
    (h : (deleteIPClaims c als).1 = none) :
    (deleteIPClaims c als).2.1.Finalizers = als.Finalizers ∧
      ∃ su, (∀ op ∈ su, ∃ a, op = Op.StatusUpdate a) ∧
        (deleteIPClaims c als).2.2.calls =
          c.calls ++ [Op.ListClaims ClaimKind.ip] ++
            listed.map (fun cl => Op.DeleteClaim ClaimKind.ip cl.Name) ++ su := by
  unfold deleteIPClaims at h ⊢
  have p1 := ListClaims_calls c ClaimKind.ip als.Name
  cases hlc : c.ListClaims ClaimKind.ip als.Name with
  | mk res c1 =>
    rw [hlc] at hl h p1
    simp only [] at hl h p1 ⊢
    subst hl
    simp only [] at h ⊢
    have p2 := deleteClaimsLoop_calls ClaimKind.ip listed [] c1
    cases hd : deleteClaimsLoop ClaimKind.ip listed [] c1 with
    | mk dres c2 =>
      obtain ⟨derr, claimedIPs⟩ := dres
      rw [hd] at h p2
      cases derr with
      | some e => simp at h
      | none =>
        have p2' := p2 rfl
        simp only [] at p2' ⊢
        refine ⟨by trivial, [Op.StatusUpdate { als with Status := { als.Status with
          ClaimedIPs := some ((als.Status.ClaimedIPs.getD []).filter
            (fun ip => contains claimedIPs ip)) } }],
          fun op hop => ⟨_, List.mem_singleton.mp hop⟩, ?_⟩
        rw [StatusUpdate_calls, p2', p1]

/-- A run of `deleteVPCIPClaims` without error on the listing `listed`: the
calls are the listing, one delete for every listed claim, and at most one
status update; the finalizer list of the object stays. -/
theorem deleteVPCIPClaims_ok (c : Client) (als : AlcorSet) (listed : List Claim)
    (hl : (c.ListClaims ClaimKind.vpc als.Name).1 = Except.ok listed)
    (h : (deleteVPCIPClaims c als).1 = none) :
    (deleteVPCIPClaims c als).2.1.Finalizers = als.Finalizers ∧
      ∃ su, (∀ op ∈ su, ∃ a, op = Op.StatusUpdate a) ∧
        (deleteVPCIPClaims c als).2.2.calls =
          c.calls ++ [Op.ListClaims ClaimKind.vpc] ++
            listed.map (fun cl => Op.DeleteClaim ClaimKind.vpc cl.Name) ++ su := by
  unfold deleteVPCIPClaims at h ⊢
  have p1 := ListClaims_calls c ClaimKind.vpc als.Name
  cases hlc : c.ListClaims ClaimKind.vpc als.Name with
  | mk res c1 =>
    rw [hlc] at hl h p1
    simp only [] at hl h p1 ⊢
    subst hl
    simp only [] at h ⊢
    have p2 := deleteClaimsLoop_calls ClaimKind.vpc listed [] c1
    cases hd : deleteClaimsLoop ClaimKind.vpc listed [] c1 with
    | mk dres c2 =>
      obtain ⟨derr, claimedIPs⟩ := dres
      rw [hd] at h p2
      cases derr with
      | some e => simp at h
      | none =>
        have p2' := p2 rfl
        simp only [] at p2' ⊢
        split
        · refine ⟨by trivial, [Op.StatusUpdate { als with Status := { als.Status with
            ClaimedIPs := some ((als.Status.ClaimedIPs.getD []).filter
              (fun ip => contains claimedIPs ip)) } }],
            fun op hop => ⟨_, List.mem_singleton.mp hop⟩, ?_⟩
          rw [StatusUpdate_calls, p2', p1]
        · refine ⟨by trivial, [], fun op hop => absurd hop (List.not_mem_nil _), ?_⟩
          rw [p2', p1]
          simp

/-- Both claim-deleting functions begin with the listing of claims. -/
theorem deleteIPClaims_first (c : Client) (als : AlcorSet) :
    (c.calls ++ [Op.ListClaims ClaimKind.ip]) <+: (deleteIPClaims c als).2.2.calls := by
  unfold deleteIPClaims
  have p1 := ListClaims_calls c ClaimKind.ip als.Name
  cases hlc : c.ListClaims ClaimKind.ip als.Name with
  | mk res c1 =>
    rw [hlc] at p1
    simp only [] at p1 ⊢
    rw [← p1]
    cases res with
    | error err => simp only []; split <;> exact List.prefix_refl _
    | ok listed =>
      simp only []
      have q := (deleteClaimsLoop_owner ClaimKind.ip listed [] c1).2
      cases hd : deleteClaimsLoop ClaimKind.ip listed [] c1 with
      | mk dres c2 =>
        obtain ⟨derr, claimedIPs⟩ := dres
        rw [hd] at q
        cases derr with
        | some e => exact q
        | none =>
          simp only []
          rw [StatusUpdate_calls]
          exact List.IsPrefix.trans q (List.prefix_append _ _)

theorem deleteVPCIPClaims_first (c : Client) (als : AlcorSet) :
    (c.calls ++ [Op.ListClaims ClaimKind.vpc]) <+: (deleteVPCIPClaims c als).2.2.calls := by
  unfold deleteVPCIPClaims
  have p1 := ListClaims_calls c ClaimKind.vpc als.Name
  cases hlc : c.ListClaims ClaimKind.vpc als.Name with
  | mk res c1 =>
    rw [hlc] at p1
    simp only [] at p1 ⊢
    rw [← p1]
    cases res with
    | error err => simp only []; split <;> exact List.prefix_refl _
    | ok listed =>
      simp only []
      have q := (deleteClaimsLoop_owner ClaimKind.vpc listed [] c1).2
      cases hd : deleteClaimsLoop ClaimKind.vpc listed [] c1 with
      | mk dres c2 =>
        obtain ⟨derr, claimedIPs⟩ := dres
        rw [hd] at q
        cases derr with
        | some e => exact q
        | none =>
          simp only []
          split
          · rw [StatusUpdate_calls]
            exact List.IsPrefix.trans q (List.prefix_append _ _)
          · exact q


/-- With no pods listed and one of the two finalizers present the deletion
branch is step 3 for the kind `deletionKind` picks. -/
theorem reconcileDeleting_step3 (c c1 : Client) (als : AlcorSet)
    (hpods : getPods c als = (([], none), c1))
    (hfin : contains als.Finalizers FinalizerIPClaim = true ∨
      contains als.Finalizers FinalizerVPCIPClaim = true) :
    reconcileDeleting c als = deletionStep3 (deletionKind als) c1 als := by
  unfold reconcileDeleting deletionStep3 deletionKind
  rw [hpods]
  simp only [List.length_nil, gt_iff_lt, lt_self_iff_false, if_false]
  cases h1 : contains als.Finalizers FinalizerIPClaim with
  | true => rfl
  | false =>
    rw [h1] at hfin
    have h2 : contains als.Finalizers FinalizerVPCIPClaim = true := by
      rcases hfin with h | h
      · exact absurd h (by simp)
      · exact h
    simp only [h2, Bool.false_eq_true, if_false, if_true]
    rfl

theorem deleteClaimsOf_keeps (kind : ClaimKind) (c : Client) (als : AlcorSet) :
    Keeps c als (deleteClaimsOf kind c als).2.2 (deleteClaimsOf kind c als).2.1 := by
  cases kind
  · exact deleteIPClaims_keeps c als
  · exact deleteVPCIPClaims_keeps c als

theorem deleteClaimsOf_first (kind : ClaimKind) (c : Client) (als : AlcorSet) :
    (c.calls ++ [Op.ListClaims kind]) <+: (deleteClaimsOf kind c als).2.2.calls := by
  cases kind
  · exact deleteIPClaims_first c als
  · exact deleteVPCIPClaims_first c als

theorem deleteClaimsOf_ok (kind : ClaimKind) (c : Client) (als : AlcorSet) (listed : List Claim)
    (hl : (c.ListClaims kind als.Name).1 = Except.ok listed)
    (h : (deleteClaimsOf kind c als).1 = none) :
    (deleteClaimsOf kind c als).2.1.Finalizers = als.Finalizers ∧
      ∃ su, (∀ op ∈ su, ∃ a, op = Op.StatusUpdate a) ∧
        (deleteClaimsOf kind c als).2.2.calls =
          c.calls ++ [Op.ListClaims kind] ++
            listed.map (fun cl => Op.DeleteClaim kind cl.Name) ++ su := by
  cases kind
  · exact deleteIPClaims_ok c als listed hl h
  · exact deleteVPCIPClaims_ok c als listed hl h

theorem Update_claims (c : Client) (als : AlcorSet) :
    (c.Update als).2.world.ipclaims = c.world.ipclaims ∧
      (c.Update als).2.world.vpcipclaims = c.world.vpcipclaims := by
  unfold Client.Update
  split
  · exact ⟨rfl, rfl⟩
  · split <;> exact ⟨rfl, rfl⟩

/-- Step 3 with an empty `Status.ClaimedIPs`: the one call is the update
that removes the finalizer; no claim is listed or deleted. -/
theorem deletionStep3_empty (kind : ClaimKind) (c : Client) (als : AlcorSet)
    (hips : als.ips = []) :
    (deletionStep3 kind c als).2.calls =
        c.calls ++ [Op.Update (withoutFinalizer als (claimFinalizer kind))] ∧
      (deletionStep3 kind c als).2.world.ipclaims = c.world.ipclaims ∧
      (deletionStep3 kind c als).2.world.vpcipclaims = c.world.vpcipclaims := by
  unfold deletionStep3 removeFinalizer
  unfold AlcorSet.ips at hips
  rw [hips]
  simp only [List.length_nil, gt_iff_lt, lt_self_iff_false, if_false]
  have p := Update_calls c (withoutFinalizer als (claimFinalizer kind))
  have q := Update_claims c (withoutFinalizer als (claimFinalizer kind))
  unfold withoutFinalizer at p q ⊢
  generalize c.Update _ = r at p q ⊢
  obtain ⟨e, c2⟩ := r
  cases e <;> exact ⟨p, q⟩


/-- Step 3 with a non-empty `Status.ClaimedIPs`: the claim-deleting function
is called first; an error of the step leaves the stored finalizer list as it
was; and a step without error has deleted every listed claim before the
update that removes the finalizer, which is its last call. -/
theorem deletionStep3_claimed (kind : ClaimKind) (c : Client) (als : AlcorSet)
    (hips : als.ips ≠ []) :
    ((c.calls ++ [Op.ListClaims kind]) <+: (deletionStep3 kind c als).2.calls) ∧
      ((deletionStep3 kind c als).1.2 ≠ none →
        (deletionStep3 kind c als).2.world.fins = c.world.fins) ∧
      (∀ listed, (c.ListClaims kind als.Name).1 = Except.ok listed →
        (deletionStep3 kind c als).1.2 = none →
        ∃ su u, (∀ op ∈ su, ∃ a, op = Op.StatusUpdate a) ∧
          u.Finalizers = als.Finalizers.filter (fun f => f ≠ claimFinalizer kind) ∧
          (deletionStep3 kind c als).2.calls =
            c.calls ++ [Op.ListClaims kind] ++
              listed.map (fun cl => Op.DeleteClaim kind cl.Name) ++ su ++ [Op.Update u] ∧
          (deletionStep3 kind c als).2.world.fins = some u.Finalizers) := by
  have hlen : (als.Status.ClaimedIPs.getD []).length > 0 := List.length_pos.mpr hips
  have k := deleteClaimsOf_keeps kind c als
  have f := deleteClaimsOf_first kind c als
  have ok := deleteClaimsOf_ok kind c als
  unfold deletionStep3
  rw [if_pos hlen]
  cases hd : deleteClaimsOf kind c als with
  | mk derr rest =>
    obtain ⟨als1, c2⟩ := rest
    rw [hd] at k f ok
    simp only [] at k f ok
    cases derr with
    | some e =>
      simp only []
      exact ⟨f, fun _ => k.1, fun _ _ h => absurd h (by simp)⟩
    | none =>
      simp only []
      unfold removeFinalizer
      simp only []
      have p := Update_calls c2
        { als1 with Finalizers := als1.Finalizers.filter (fun fin => fin ≠ claimFinalizer kind) }
      have hok := Update_ok c2
        { als1 with Finalizers := als1.Finalizers.filter (fun fin => fin ≠ claimFinalizer kind) }
      have hfail := Update_fail c2
        { als1 with Finalizers := als1.Finalizers.filter (fun fin => fin ≠ claimFinalizer kind) }
      generalize c2.Update _ = r at p hok hfail ⊢
      obtain ⟨e, c3⟩ := r
      have f3 : (c.calls ++ [Op.ListClaims kind]) <+: c3.calls := by
        simp only [] at p
        rw [p]
        exact List.IsPrefix.trans f (List.prefix_append _ _)
      cases e with
      | some err =>
        simp only []
        refine ⟨f3, fun _ => ?_, fun _ _ h => absurd h (by simp)⟩
        have hw : c3.world = c2.world := hfail (by simp)
        rw [hw]
        exact k.1
      | none =>
        simp only []
        refine ⟨f3, fun h => absurd rfl h, fun listed hl _ => ?_⟩
        obtain ⟨hf1, su, hsu, hcalls⟩ := ok listed hl rfl
        refine ⟨su,
          { als1 with Finalizers := als1.Finalizers.filter (fun fin => fin ≠ claimFinalizer kind) },
          hsu, ?_, ?_, ?_⟩
        · simp only []
          rw [hf1]
        · simp only [] at p
          rw [p, hcalls]
        · obtain ⟨stored, _, h⟩ := hok rfl
          unfold World.fins
          simp only [] at h
          rw [h]
          rfl


/-- C10, counterexample. The owner `web` carries a deletion marker and the
plain finalizer, no pod is left, its `Status.ClaimedIPs` is empty, and the
claim `web-0` exists without a status IP (created, never fulfilled). Without
faults `Reconcile` removes the finalizer and neither lists nor deletes a
claim: the claim is still in the store afterwards. -/
theorem reconcile_removes_finalizer_keeping_claims :
    (Reconcile (Client.start exUnfulfilledWorld noFaults)).1 = (⟨false⟩, none) ∧
      (Reconcile (Client.start exUnfulfilledWorld noFaults)).2.calls =
        [Op.GetAlcorSet, Op.ListPods, Op.Update (exOwner 1 false false true [] (some []))] ∧
      (Reconcile (Client.start exUnfulfilledWorld noFaults)).2.world =
        ⟨some (exOwner 1 false false true [] (some [])), [], [exClaim "web-0" ""], []⟩ := by
  refine ⟨?_, ?_, ?_⟩ <;> decide

/-- C10, amended. Let a `Reconcile` call read an owner with a deletion
marker, list no pods, and find one of the two finalizers; `deletionKind`
names the kind handled (plain when `FinalizerIPClaim` is present). With an
empty `Status.ClaimedIPs` the call issues, after the two reads, only the
update that removes the finalizer, and the stored claims stay. With a
non-empty `Status.ClaimedIPs` the call invokes the claim-deleting function of
that kind right after the pod listing; when the call returns an error the
stored finalizer list is as before; and when it returns no error it has issued
a delete for every listed claim before its last call, the update that removes
the finalizer. -/
theorem reconcile_deletion_step3 (w : World) (faults : Nat → Option GoError) (als : AlcorSet)
    (hown : (Client.start w faults).GetAlcorSet.1 = Except.ok als)
    (hdel : als.Deleting = true)
    (hpods : (getPods ((Client.start w faults).log Op.GetAlcorSet) als).1 = ([], none))
    (hfin : contains als.Finalizers FinalizerIPClaim = true ∨
      contains als.Finalizers FinalizerVPCIPClaim = true) :
    (als.ips = [] →
      (Reconcile (Client.start w faults)).2.calls =
        [Op.GetAlcorSet, Op.ListPods,
          Op.Update (withoutFinalizer als (claimFinalizer (deletionKind als)))] ∧
      (Reconcile (Client.start w faults)).2.world.ipclaims = w.ipclaims ∧
      (Reconcile (Client.start w faults)).2.world.vpcipclaims = w.vpcipclaims) ∧
    (als.ips ≠ [] →
      ([Op.GetAlcorSet, Op.ListPods, Op.ListClaims (deletionKind als)] <+:
        (Reconcile (Client.start w faults)).2.calls) ∧
      ((Reconcile (Client.start w faults)).1.2 ≠ none →
        (Reconcile (Client.start w faults)).2.world.fins = w.fins) ∧
      (∀ listed,
        ((((Client.start w faults).log Op.GetAlcorSet).log Op.ListPods).ListClaims
          (deletionKind als) als.Name).1 = Except.ok listed →
        (Reconcile (Client.start w faults)).1.2 = none →
        ∃ su u, (∀ op ∈ su, ∃ a, op = Op.StatusUpdate a) ∧
          u.Finalizers =
            als.Finalizers.filter (fun f => f ≠ claimFinalizer (deletionKind als)) ∧
          (Reconcile (Client.start w faults)).2.calls =
            [Op.GetAlcorSet, Op.ListPods, Op.ListClaims (deletionKind als)] ++
              listed.map (fun cl => Op.DeleteClaim (deletionKind als) cl.Name) ++ su ++
              [Op.Update u] ∧
          (Reconcile (Client.start w faults)).2.world.fins = some u.Finalizers)) := by
  have hc1 := GetAlcorSet_client (Client.start w faults)
  have hgp : getPods ((Client.start w faults).log Op.GetAlcorSet) als =
      (([], none), ((Client.start w faults).log Op.GetAlcorSet).log Op.ListPods) := by
    have h2 := getPods_client ((Client.start w faults).log Op.GetAlcorSet) als
    cases hg : getPods ((Client.start w faults).log Op.GetAlcorSet) als with
    | mk res c2 =>
      rw [hg] at hpods h2
      simp only [] at hpods h2
      rw [hpods, h2]
  have key : Reconcile (Client.start w faults) =
      deletionStep3 (deletionKind als)
        (((Client.start w faults).log Op.GetAlcorSet).log Op.ListPods) als := by
    unfold Reconcile
    cases hg : (Client.start w faults).GetAlcorSet with
    | mk res c1 =>
      rw [hg] at hown hc1
      simp only [] at hown hc1
      subst hown
      subst hc1
      simp only [hdel, if_true]
      exact reconcileDeleting_step3 _ _ als hgp hfin
  rw [key]
  have hcalls : (((Client.start w faults).log Op.GetAlcorSet).log Op.ListPods).calls =
      [Op.GetAlcorSet, Op.ListPods] := rfl
  have hworld : (((Client.start w faults).log Op.GetAlcorSet).log Op.ListPods).world = w := rfl
  constructor
  · intro hips
    have h := deletionStep3_empty (deletionKind als)
      (((Client.start w faults).log Op.GetAlcorSet).log Op.ListPods) als hips
    rw [hcalls, hworld] at h
    exact h
  · intro hips
    have h := deletionStep3_claimed (deletionKind als)
      (((Client.start w faults).log Op.GetAlcorSet).log Op.ListPods) als hips
    rw [hcalls, hworld] at h
    exact h

/-- Witness for C10 (amended): the store `exClaimedWorld`, where the owner
`web` is being deleted, no pod is left, and the claim `web-0` holds the one
claimed IP. -/
theorem reconcile_deletion_step3_witness :
    (Client.start exClaimedWorld noFaults).GetAlcorSet.1 =
        Except.ok (exOwner 1 false false true [FinalizerIPClaim] (some ["10.0.0.5".toList])) ∧
      (getPods ((Client.start exClaimedWorld noFaults).log Op.GetAlcorSet)
        (exOwner 1 false false true [FinalizerIPClaim] (some ["10.0.0.5".toList]))).1 =
        ([], none) ∧
      ([Op.GetAlcorSet, Op.ListPods, Op.ListClaims ClaimKind.ip] <+:
        (Reconcile (Client.start exClaimedWorld noFaults)).2.calls) ∧
      (Reconcile (Client.start exClaimedWorld noFaults)).2.calls =
        [Op.GetAlcorSet, Op.ListPods, Op.ListClaims ClaimKind.ip,
          Op.DeleteClaim ClaimKind.ip "web-0".toList,
          Op.StatusUpdate (exOwner 1 false false true [FinalizerIPClaim]
            (some ["10.0.0.5".toList])),
          Op.Update (exOwner 1 false false true [] (some ["10.0.0.5".toList]))] :=
  ⟨rfl, rfl,
    ((reconcile_deletion_step3 exClaimedWorld noFaults
      (exOwner 1 false false true [FinalizerIPClaim] (some ["10.0.0.5".toList]))
      rfl rfl rfl (Or.inl (by decide))).2 (by decide)).1,
    by decide⟩


/-- What `deleteIPClaims` leaves in `Status.ClaimedIPs` when the listing
returns `listed` and no call fails: the entries that ARE the status IP of a
listed (and deleted) claim; every other entry is dropped. -/
theorem deleteIPClaims_ipLeft (c : Client) (als : AlcorSet) (listed : List Claim)
    (hl : (c.ListClaims ClaimKind.ip als.Name).1 = Except.ok listed)
    (h : (deleteIPClaims c als).1 = none) :
    (deleteIPClaims c als).2.1.ips =
      als.ips.filter (fun ip => decide (ip ∈ listed.map (fun cl => cl.IP))) := by
  unfold deleteIPClaims at h ⊢
  cases hlc : c.ListClaims ClaimKind.ip als.Name with
  | mk res c1 =>
    rw [hlc] at hl h
    simp only [] at hl h ⊢
    subst hl
    simp only [] at h ⊢
    have p2 := deleteClaimsLoop_ips ClaimKind.ip listed [] c1
    cases hd : deleteClaimsLoop ClaimKind.ip listed [] c1 with
    | mk dres c2 =>
      obtain ⟨derr, claimedIPs⟩ := dres
      rw [hd] at h p2
      cases derr with
      | some e => simp at h
      | none =>
        have p2' := p2 rfl
        simp only [List.nil_append] at p2'
        subst p2'
        simp only [AlcorSet.ips, Option.getD_some]
        apply List.filter_congr
        intro ip _
        cases hc : contains (listed.map (fun cl => cl.IP)) ip with
        | true => simp [(contains_iff _ _).mp hc]
        | false => simp [(contains_eq_false_iff _ _).mp hc]


/-! ## Theorems: bulk teardown -/

theorem atoiFast_nondigit (s : List Char) (n : Nat) (h : s.all isDigit = false) :
    atoiFast s n = none := by
  induction s generalizing n with
  | nil => simp at h
  | cons c cs ih =>
    unfold atoiFast
    by_cases hc : 48 ≤ c.toNat ∧ c.toNat ≤ 57
    · rw [if_pos hc]
      apply ih
      simpa [List.all_cons, isDigit, hc] using h
    · rw [if_neg hc]

/-- The digit loop of `ParseUint` on a string with a byte that is no digit
ends in a syntax error with value 0 or, when the digits in front of that byte
overflow, in a range error with the largest value. -/
theorem parseUintLoop_nondigit (s : List Char) (n : Nat) (h : s.all isDigit = false) :
    parseUintLoop s n = (0, some NumError.ErrSyntax) ∨
      parseUintLoop s n = (maxUint64, some NumError.ErrRange) := by
  induction s generalizing n with
  | nil => simp at h
  | cons c cs ih =>
    unfold parseUintLoop
    by_cases hc : 48 ≤ c.toNat ∧ c.toNat ≤ 57
    · rw [if_pos hc]
      split
      · exact Or.inr rfl
      · simp only []
        split
        · exact Or.inr rfl
        · apply ih
          simpa [List.all_cons, isDigit, hc] using h
    · rw [if_neg hc]
      exact Or.inl rfl

/-- No overflow can happen before the 20th digit: with `k` digits read and
the rest of the string, which holds a byte that is no digit, ending within
20 bytes, the digit loop of `ParseUint` ends in a syntax error. -/
theorem parseUintLoop_short (s : List Char) (n k : Nat) (hn : n < 10 ^ k)
    (h : s.all isDigit = false) (hlen : k + s.length ≤ 20) :
    parseUintLoop s n = (0, some NumError.ErrSyntax) := by
  induction s generalizing n k with
  | nil => simp at h
  | cons c cs ih =>
    unfold parseUintLoop
    by_cases hc : 48 ≤ c.toNat ∧ c.toNat ≤ 57
    · rw [if_pos hc]
      have hcs : cs.all isDigit = false := by
        simpa [List.all_cons, isDigit, hc] using h
      have hne : cs ≠ [] := by
        intro e; rw [e] at hcs; simp at hcs
      have hpos : 0 < cs.length := List.length_pos.mpr hne
      simp only [List.length_cons] at hlen
      have hk : k ≤ 18 := by omega
      have h18 : n < 10 ^ 18 :=
        lt_of_lt_of_le hn (Nat.pow_le_pow_right (by norm_num) hk)
      have hcut : ¬ n ≥ maxUint64 / 10 + 1 := by
        unfold maxUint64
        norm_num at h18 ⊢
        omega
      rw [if_neg hcut]
      simp only []
      have hn1 : n * 10 + (c.toNat - 48) < 10 ^ (k + 1) := by
        rw [pow_succ]
        omega
      have hmax : ¬ n * 10 + (c.toNat - 48) > maxUint64 := by
        unfold maxUint64
        norm_num at h18 ⊢
        omega
      rw [if_neg hmax]
      exact ih _ (k + 1) hn1 hcs (by omega)
    · rw [if_neg hc]


theorem ParseUint_not_digits (body : List Char) (h : body = [] ∨ body.all isDigit = false) :
    (ParseUint body = (0, some NumError.ErrSyntax) ∨
        ParseUint body = (maxUint64, some NumError.ErrRange)) ∧
      (body.length ≤ 20 → ParseUint body = (0, some NumError.ErrSyntax)) := by
  cases body with
  | nil => exact ⟨Or.inl rfl, fun _ => rfl⟩
  | cons c cs =>
    have hd : (c :: cs).all isDigit = false := by
      rcases h with h | h
      · exact absurd h (by simp)
      · exact h
    unfold ParseUint
    simp only []
    exact ⟨parseUintLoop_nondigit _ 0 hd,
      fun hl => parseUintLoop_short _ 0 0 (by norm_num) hd (by omega)⟩

theorem ParseInt_not_decimal (c0 : Char) (rest : List Char) (hneg : c0 ≠ '-')
    (h : (if c0 = '+' ∨ c0 = '-' then rest else c0 :: rest) = [] ∨
      (if c0 = '+' ∨ c0 = '-' then rest else c0 :: rest).all isDigit = false) :
    ((ParseInt (c0 :: rest)).1 = 0 ∨ (ParseInt (c0 :: rest)).1 = maxInt64) ∧
      ((c0 :: rest).length ≤ 20 → (ParseInt (c0 :: rest)).1 = 0) := by
  obtain ⟨h1, h2⟩ := ParseUint_not_digits _ h
  have hbl : (c0 :: rest).length ≤ 20 →
      (if c0 = '+' ∨ c0 = '-' then rest else c0 :: rest).length ≤ 20 := by
    intro hl
    split
    · simp only [List.length_cons] at hl; omega
    · exact hl
  unfold ParseInt
  simp only [hneg, decide_False, Bool.not_false, Bool.true_and, Bool.false_and]
  simp only [hneg] at h1 h2 hbl
  constructor
  · rcases h1 with e | e
    · rw [e]; exact Or.inl rfl
    · rw [e]; right; simp [maxUint64, maxInt64]
  · intro hl
    rw [h2 (hbl hl)]

/-- The function `Atoi` on a string without `-` that is no decimal number:
the value is 0, or the largest `int` when leading digits overflow; it is 0
whenever the string has at most 20 bytes. -/
theorem Atoi_not_decimal (f : GoString) (hneg : '-' ∉ f) (hdec : isDecimal f = false) :
    ((Atoi f).1 = 0 ∨ (Atoi f).1 = maxInt64) ∧ (f.length ≤ 20 → (Atoi f).1 = 0) := by
  cases f with
  | nil => exact ⟨Or.inl rfl, fun _ => rfl⟩
  | cons c0 rest =>
    have hc : c0 ≠ '-' := fun e => hneg (by simp [e])
    have hbody : (if c0 = '+' ∨ c0 = '-' then rest else c0 :: rest) = [] ∨
        (if c0 = '+' ∨ c0 = '-' then rest else c0 :: rest).all isDigit = false := by
      unfold isDecimal at hdec
      simp only [] at hdec
      by_cases hs : c0 = '+' ∨ c0 = '-'
      · rw [if_pos hs] at hdec ⊢
        cases rest with
        | nil => exact Or.inl rfl
        | cons r rs =>
          right
          simpa using hdec
      · rw [if_neg hs] at hdec ⊢
        exact Or.inr hdec
    unfold Atoi
    by_cases hlen : 0 < (c0 :: rest).length ∧ (c0 :: rest).length < 19
    · rw [if_pos hlen]
      have hzero : (match (c0 :: rest : List Char) with
          | [] => ((0 : Int), some NumError.ErrSyntax)
          | c0 :: rest =>
            let signed := decide (c0 = '-' ∨ c0 = '+')
            if signed && decide (rest.length < 1) then (0, some NumError.ErrSyntax)
            else
              match atoiFast (if signed then rest else c0 :: rest) 0 with
              | none => (0, some NumError.ErrSyntax)
              | some n => (if c0 = '-' then -(n : Int) else (n : Int), none)).1 = 0 := by
        simp only [hc, false_or]
        by_cases hp : c0 = '+'
        · simp only [hp, decide_True, Bool.true_and, if_true]
          simp only [hp, true_or, if_true] at hbody
          rcases hbody with e | e
          · subst e; simp
          · rw [atoiFast_nondigit rest 0 e]
            split <;> rfl
        · simp only [hp, decide_False, Bool.false_and, if_false]
          simp only [hp, hc, or_self, if_false] at hbody
          rcases hbody with e | e
          · exact absurd e (by simp)
          · simp only [Bool.false_eq_true, if_false]
            rw [atoiFast_nondigit _ 0 e]
      exact ⟨Or.inl hzero, fun _ => hzero⟩
    · rw [if_neg hlen]
      exact ParseInt_not_decimal c0 rest hc hbody


/-- C14, counterexample. The last segment of `web-99999999999999999999x` is
no decimal number (it ends in `x`), and `getIndexByName` returns
9223372036854775807, not 0: the twenty digits overflow in `ParseUint`, which
returns at once with a range error, before it reaches the `x`. -/
theorem getIndexByName_overflow_not_zero :
    lastSegment "web-99999999999999999999x".toList = "99999999999999999999x".toList ∧
      isDecimal (lastSegment "web-99999999999999999999x".toList) = false ∧
      getIndexByName "web-99999999999999999999x".toList = some 9223372036854775807 := by
  refine ⟨?_, ?_, ?_⟩ <;> decide

/-- C14, amended. For every string `getIndexByName` is total and
non-negative: the access to the last field is in range, the function returns
an index, and the index is at least 0. When the last segment is no decimal
number the index is 0 or the largest `int`, and it is 0 whenever that segment
has at most 20 bytes. Hence the sequential scan of `tearDownPods` over a
non-empty list, starting from -1, never fails and always ends with `pop`
set, pointing at the loop variable. -/
theorem getIndexByName_total_nonneg (podName : GoString) :
    (Split podName PodNameIndexSep).length - 1 < (Split podName PodNameIndexSep).length ∧
      (∃ i : Int, getIndexByName podName = some i ∧ 0 ≤ i ∧
        (isDecimal (lastSegment podName) = false →
          (i = 0 ∨ i = maxInt64) ∧ ((lastSegment podName).length ≤ 20 → i = 0))) ∧
      (∀ (pods : List Pod) (hne : pods ≠ []),
        ∃ st, popLoop pods { index := -1, pop := false, pod := none } = some st ∧
          st.pop = true ∧ st.pod = some (pods.getLast hne)) := by
  have hne := splitLoop_ne_nil PodNameIndexSep podName []
  have hlen : 0 < (Split podName PodNameIndexSep).length := List.length_pos.mpr hne
  refine ⟨by omega, ?_, ?_⟩
  · unfold getIndexByName lastSegment
    simp only []
    rw [← List.getLast?_eq_getElem?]
    cases hl : (Split podName PodNameIndexSep).getLast? with
    | none =>
      rw [List.getLast?_eq_none_iff] at hl
      exact absurd hl hne
    | some field =>
      have hmem : field ∈ Split podName PodNameIndexSep := List.mem_of_getLast?_eq_some hl
      have hsep : '-' ∉ field :=
        splitLoop_fields_no_sep PodNameIndexSep podName [] (by simp) field hmem
      exact ⟨(Atoi field).1, rfl, Atoi_nonneg field hsep,
        fun hdec => Atoi_not_decimal field hsep hdec⟩
  · intro pods hp
    obtain ⟨st1, h1, h2, _, h4⟩ := popLoop_spec pods { index := -1, pop := false, pod := none }
    refine ⟨st1, h1, h4 (by decide) hp, ?_⟩
    rw [h2, List.getLast?_eq_getLast _ hp]

/-- Examples for C14: the empty name, a name without separator, a name that
ends in the separator and a name with a segment of letters all have
index 0. -/
theorem getIndexByName_total_nonneg_witness :
    getIndexByName [] = some 0 ∧ getIndexByName "web".toList = some 0 ∧
      getIndexByName "web-".toList = some 0 ∧ getIndexByName "web-abc".toList = some 0 ∧
      (Split [] PodNameIndexSep).length - 1 < (Split [] PodNameIndexSep).length :=
  ⟨by decide, by decide, by decide, by decide, (getIndexByName_total_nonneg []).1⟩


/-! ## Theorems: failures of claim creation -/

end Alcor
